import Mathlib

/-!
# Shard-stake state codec (`smartcontract/service/native/shard_stake/states.go`)

A shallow embedding of the serialisation code of the shard staking ledger:
`PeerViewInfo`, `ViewInfo`, `UserPeerStakeInfo` and `UserStakeInfo`, with their
`Serialize` / `Deserialize` methods and `ViewInfo.GetPeer`.

Conventions of the embedding.

* A Go `error` produced by `fmt.Errorf` is the rendered message, a `String`;
  `nil` is the `.ok` branch of `Except`.
* An `io.Reader` is the list of bytes still unread; a read returns the value
  together with the remaining bytes.
* An `io.Writer` is a buffer with an optional capacity, so that writes can fail.
* A Go `map` is an association list without repeated keys; the order of the
  list is one order in which `range` may visit the entries, and statements that
  hold for every iteration order quantify over the permutations of the list.
* A method with a pointer receiver that is asked about its effect on the
  receiver (`GetPeer`, the two collection `Serialize`) returns the receiver after
  the call next to its result; `Deserialize` returns the receiver it has filled,
  and `DeserializeReceiver` gives the receiver after a call that may have failed.
* The packages `serialization`, `utils`, `hex` and `keypair` are not part of the
  file; their functions are the fields of `Codec`, and what the theorems assume
  of them is stated as hypotheses (`Codec.RoundTrips`, `Codec.RejectsTruncated`).
-/

namespace ShardStake

/-! ## Basic types -/

/-- One octet of a byte stream. -/
abbrev Byte := Fin 256

/-- Go's `uint64`. -/
abbrev Uint64 := Fin (2 ^ 64)

/-- The conversion `uint64(n)` of a non-negative Go `int`. -/
def toUint64 (n : Nat) : Uint64 := ⟨n % 2 ^ 64, Nat.mod_lt _ (by decide)⟩

/-- A Go `error` built by `fmt.Errorf`, as its message. -/
abbrev Error := String

/-- An `io.Reader` over a byte slice: the bytes not yet consumed. -/
abbrev Reader := List Byte

/-- An `io.Writer`: the bytes accepted so far and, when the sink is bounded, how
many more bytes it accepts (`none` for a sink that never fails, such as
`bytes.Buffer`). -/
structure Writer where
  buf : List Byte
  room : Option Nat
deriving DecidableEq, Repr

/-- An empty `bytes.Buffer`. -/
def Writer.buffer : Writer := { buf := [], room := none }

/-- The method `Write(p)` of the sink: all of `p` is appended, or the write fails. -/
def Writer.Write (w : Writer) (p : List Byte) : Except Error Writer :=
  match w.room with
  | none => .ok { w with buf := w.buf ++ p }
  | some n =>
    if p.length ≤ n then .ok { buf := w.buf ++ p, room := some (n - p.length) }
    else .error "short write"

/-- Go's comparison `a > b` of two strings. Go compares the bytes of the two
strings lexicographically; on well-formed UTF-8 this is the lexicographic order
of the code points, which is the order of `String` (`String.lt_iff_toList_lt`). -/
def strGt (a b : String) : Bool := decide (b.toList < a.toList)

/-- Go's `sort.SliceStable(xs, less)`: the stable sort of `xs` by `less`, here as
insertion sort, which keeps elements that `less` does not separate in their
original order. -/
def sortSliceStable {α : Type} (less : α → α → Bool) (xs : List α) : List α :=
  xs.insertionSort (fun a b => less b a = false)

/-! ## External primitives -/

/-- The functions of the packages `serialization`, `utils`, `encoding/hex` and
`keypair` that the file calls, over the key type `K` (`keypair.PublicKey`) and
the address type `A` (`common.Address`). Each writer of a primitive value writes
the bytes given by the corresponding `enc` field to the sink. -/
structure Codec (K A : Type) where
  encString : String → List Byte
  encAddress : A → List Byte
  encVarUint : Uint64 → List Byte
  ReadString : Reader → Except Error (String × Reader)
  ReadAddress : Reader → Except Error (A × Reader)
  ReadVarUint : Reader → Except Error (Uint64 × Reader)
  DecodeString : String → Except Error (List Byte)
  DeserializePublicKey : List Byte → Except Error K

section Source

variable {K A : Type}

/-- The call `serialization.WriteString(w, s)`. -/
def Codec.WriteString (c : Codec K A) (w : Writer) (s : String) : Except Error Writer :=
  w.Write (c.encString s)

/-- The call `utils.WriteAddress(w, a)`. -/
def Codec.WriteAddress (c : Codec K A) (w : Writer) (a : A) : Except Error Writer :=
  w.Write (c.encAddress a)

/-- The call `utils.WriteVarUint(w, v)`. -/
def Codec.WriteVarUint (c : Codec K A) (w : Writer) (v : Uint64) : Except Error Writer :=
  w.Write (c.encVarUint v)

/-! ## Go maps -/

/-- The length `len(m)` of a map; a nil map (`none`) has length zero. -/
def mapLen {V : Type} (m : Option (List (K × V))) : Nat :=
  match m with
  | none => 0
  | some l => l.length

/-- The entries `range m` visits, in the order it visits them; none for a nil map. -/
def mapRange {V : Type} (m : Option (List (K × V))) : List (K × V) :=
  match m with
  | none => []
  | some l => l

/-- The assignment `m[k] = v`: the value under an existing key is replaced, a new
key is added. -/
def mapAssign {V : Type} [DecidableEq K] (m : List (K × V)) (k : K) (v : V) : List (K × V) :=
  match m with
  | [] => [(k, v)]
  | (k0, v0) :: t => if k0 = k then (k, v) :: t else (k0, v0) :: mapAssign t k v

/-- The lookup `v, ok := m[k]`. -/
def mapIndex {V : Type} [DecidableEq K] (m : List (K × V)) (k : K) : Option V :=
  match m with
  | [] => none
  | (k0, v0) :: t => if k0 = k then some v0 else mapIndex t k

/-! ## PeerViewInfo -/

/-- The struct `PeerViewInfo`. -/
structure PeerViewInfo (A : Type) where
  PeerPubKey : String
  Owner : A
  WholeFee : Uint64
  FeeBalance : Uint64
  WholeStakeAmount : Uint64
  WholeUnfreezeAmount : Uint64
  UserStakeAmount : Uint64
  MaxAuthorization : Uint64
  Proportion : Uint64
deriving DecidableEq, Repr

/-- The zero value `PeerViewInfo{}`; `default` is the zero address. -/
def PeerViewInfo.zero [Inhabited A] : PeerViewInfo A :=
  { PeerPubKey := "", Owner := default, WholeFee := 0, FeeBalance := 0,
    WholeStakeAmount := 0, WholeUnfreezeAmount := 0, UserStakeAmount := 0,
    MaxAuthorization := 0, Proportion := 0 }

/-- The method `(*PeerViewInfo).Serialize`. -/
def PeerViewInfo.Serialize (c : Codec K A) (this : PeerViewInfo A) (w : Writer) :
    Except Error Writer :=
  match c.WriteString w this.PeerPubKey with
  | .error err => .error ("serialize peer public key failed, err: " ++ err)
  | .ok w =>
  match c.WriteAddress w this.Owner with
  | .error err => .error ("serialize owner failed, err: " ++ err)
  | .ok w =>
  match c.WriteVarUint w this.WholeFee with
  | .error err => .error ("serialize whole fee failed, err: " ++ err)
  | .ok w =>
  match c.WriteVarUint w this.FeeBalance with
  | .error err => .error ("serialize fee balance failed, err: " ++ err)
  | .ok w =>
  match c.WriteVarUint w this.WholeStakeAmount with
  | .error err => .error ("serialize whole stake amount failed, err: " ++ err)
  | .ok w =>
  match c.WriteVarUint w this.WholeUnfreezeAmount with
  | .error err => .error ("serialize whole unfreeze amount failed, err: " ++ err)
  | .ok w =>
  match c.WriteVarUint w this.UserStakeAmount with
  | .error err => .error ("serialize user stake amount failed, err: " ++ err)
  | .ok w =>
  match c.WriteVarUint w this.MaxAuthorization with
  | .error err => .error ("serialize max authorization failed, err: " ++ err)
  | .ok w =>
  match c.WriteVarUint w this.Proportion with
  | .error err => .error ("serialize propotion failed, err: " ++ err)
  | .ok w => .ok w

/-- The method `(*PeerViewInfo).Deserialize`: the receiver `this` is overwritten
field by field; on success the updated receiver and the unread bytes are
returned. -/
def PeerViewInfo.Deserialize (c : Codec K A) (this : PeerViewInfo A) (r : Reader) :
    Except Error (PeerViewInfo A × Reader) :=
  match c.ReadString r with
  | .error err => .error ("deserialize: read peer pub key failed, err: " ++ err)
  | .ok (v, r) =>
  let this := { this with PeerPubKey := v }
  match c.ReadAddress r with
  | .error err => .error ("deserialize: read owner failed, err: " ++ err)
  | .ok (v, r) =>
  let this := { this with Owner := v }
  match c.ReadVarUint r with
  | .error err => .error ("deserialize: read whole fee failed, err: " ++ err)
  | .ok (v, r) =>
  let this := { this with WholeFee := v }
  match c.ReadVarUint r with
  | .error err => .error ("deserialize: read fee balance failed, err: " ++ err)
  | .ok (v, r) =>
  let this := { this with FeeBalance := v }
  match c.ReadVarUint r with
  | .error err => .error ("deserialize: read whole stake amount failed, err: " ++ err)
  | .ok (v, r) =>
  let this := { this with WholeStakeAmount := v }
  match c.ReadVarUint r with
  | .error err => .error ("deserialize: read whole unfreeze amount failed, err: " ++ err)
  | .ok (v, r) =>
  let this := { this with WholeUnfreezeAmount := v }
  match c.ReadVarUint r with
  | .error err => .error ("deserialize: read user stake amount failed, err: " ++ err)
  | .ok (v, r) =>
  let this := { this with UserStakeAmount := v }
  match c.ReadVarUint r with
  | .error err => .error ("deserialize: read max authorization failed, err: " ++ err)
  | .ok (v, r) =>
  let this := { this with MaxAuthorization := v }
  match c.ReadVarUint r with
  | .error err => .error ("deserialize: read proportion failed, err: " ++ err)
  | .ok (v, r) =>
  let this := { this with Proportion := v }
  .ok (this, r)

/-! ## ViewInfo -/

/-- The struct `ViewInfo`; `Peers = none` is the nil map. -/
structure ViewInfo (K A : Type) where
  Peers : Option (List (K × PeerViewInfo A))

/-- The method `(*ViewInfo).GetPeer`. The first component is the receiver after
the call, the second the returned record and key, or the error. -/
def ViewInfo.GetPeer [DecidableEq K] (c : Codec K A) (this : ViewInfo K A) (pubKey : String) :
    ViewInfo K A × Except Error (PeerViewInfo A × K) :=
  match this.Peers with
  | none => (this, .error "GetPeer: peers is nil")
  | some peers =>
  match c.DecodeString pubKey with
  | .error err => (this, .error ("GetPeer: decode param pub key failed, err: " ++ err))
  | .ok pubKeyData =>
  match c.DeserializePublicKey pubKeyData with
  | .error err => (this, .error ("GetPeer: deserialize param pub key failed, err: " ++ err))
  | .ok paramPubkey =>
  match mapIndex peers paramPubkey with
  | none => (this, .error ("GetPeer: peer " ++ pubKey ++ " not exist"))
  | some shardPeerStakeInfo => (this, .ok (shardPeerStakeInfo, paramPubkey))

/-- The loop `for index, info := range peerInfoList` of `(*ViewInfo).Serialize`,
from position `index` on. -/
def ViewInfo.serializeLoop (c : Codec K A) :
    Nat → List (PeerViewInfo A) → Writer → Except Error Writer
  | _, [], w => .ok w
  | index, info :: rest, w =>
    match info.Serialize c w with
    | .error err => .error ("serialize: index " ++ toString index ++ ", err: " ++ err)
    | .ok w => ViewInfo.serializeLoop c (index + 1) rest w

/-- The method `(*ViewInfo).Serialize`. The first component is the receiver after
the call (the method assigns to no field of it), the second the sink after the
call, or the error. -/
def ViewInfo.Serialize (c : Codec K A) (this : ViewInfo K A) (w : Writer) :
    ViewInfo K A × Except Error Writer :=
  match c.WriteVarUint w (toUint64 (mapLen this.Peers)) with
  | .error err => (this, .error ("serialize: wirte peers len faield, err: " ++ err))
  | .ok w =>
  let peerInfoList := (mapRange this.Peers).map (fun entry => entry.2)
  let peerInfoList :=
    sortSliceStable (fun a b => strGt a.PeerPubKey b.PeerPubKey) peerInfoList
  (this, ViewInfo.serializeLoop c 0 peerInfoList w)

/-- The loop `for i := uint64(0); i < num; i++` of `(*ViewInfo).Deserialize`, with
`n` iterations left, from counter `i` on, over the map built so far. -/
def ViewInfo.deserializeLoop [DecidableEq K] [Inhabited A] (c : Codec K A) :
    Nat → Nat → List (K × PeerViewInfo A) → Reader →
      Except Error (List (K × PeerViewInfo A) × Reader)
  | 0, _, peers, r => .ok (peers, r)
  | n + 1, i, peers, r =>
    match PeerViewInfo.Deserialize c PeerViewInfo.zero r with
    | .error err => .error ("deserialize: index " ++ toString i ++ ", err: " ++ err)
    | .ok (info, r) =>
    match c.DecodeString info.PeerPubKey with
    | .error err => .error ("deserialze: decode pub key failed, err: " ++ err)
    | .ok pubKeyData =>
    match c.DeserializePublicKey pubKeyData with
    | .error err => .error ("deserialze: deserialize pub key failed, err: " ++ err)
    | .ok pubKey => ViewInfo.deserializeLoop c n (i + 1) (mapAssign peers pubKey info) r

/-- The method `(*ViewInfo).Deserialize`; on success the updated receiver and the
unread bytes are returned. -/
def ViewInfo.Deserialize [DecidableEq K] [Inhabited A] (c : Codec K A) (this : ViewInfo K A)
    (r : Reader) : Except Error (ViewInfo K A × Reader) :=
  match c.ReadVarUint r with
  | .error err => .error ("deserialze: read peers num failed, err: " ++ err)
  | .ok (num, r) =>
  let this := { this with Peers := some [] }
  match ViewInfo.deserializeLoop c num.val 0 (mapRange this.Peers) r with
  | .error err => .error err
  | .ok (peers, r) => .ok ({ this with Peers := some peers }, r)

/-! ## UserStakeInfo -/

/-- The struct `UserPeerStakeInfo`. -/
structure UserPeerStakeInfo where
  PeerPubKey : String
  StakeAmount : Uint64
  UnfreezeAmount : Uint64
deriving DecidableEq, Repr

/-- The zero value `UserPeerStakeInfo{}`. -/
def UserPeerStakeInfo.zero : UserPeerStakeInfo :=
  { PeerPubKey := "", StakeAmount := 0, UnfreezeAmount := 0 }

/-- The struct `UserStakeInfo`; `Peers = none` is the nil map. -/
structure UserStakeInfo (K : Type) where
  Peers : Option (List (K × UserPeerStakeInfo))

/-- The loop `for index, info := range userPeerInfoList` of
`(*UserStakeInfo).Serialize`, from position `index` on. -/
def UserStakeInfo.serializeLoop (c : Codec K A) :
    Nat → List UserPeerStakeInfo → Writer → Except Error Writer
  | _, [], w => .ok w
  | index, info :: rest, w =>
    match c.WriteString w info.PeerPubKey with
    | .error err =>
      .error ("serialize peer public key failed, index " ++ toString index ++ ", err: " ++ err)
    | .ok w =>
    match c.WriteVarUint w info.StakeAmount with
    | .error err =>
      .error ("serialize stake amount failed, index " ++ toString index ++ ", err: " ++ err)
    | .ok w =>
    match c.WriteVarUint w info.UnfreezeAmount with
    | .error err =>
      .error ("serialize unfreeze amount failed, index " ++ toString index ++ ", err: " ++ err)
    | .ok w => UserStakeInfo.serializeLoop c (index + 1) rest w

/-- The method `(*UserStakeInfo).Serialize`. The first component is the receiver
after the call (the method assigns to no field of it), the second the sink after
the call, or the error. -/
def UserStakeInfo.Serialize (c : Codec K A) (this : UserStakeInfo K) (w : Writer) :
    UserStakeInfo K × Except Error Writer :=
  match c.WriteVarUint w (toUint64 (mapLen this.Peers)) with
  | .error err => (this, .error ("serialize: wirte peers len faield, err: " ++ err))
  | .ok w =>
  let userPeerInfoList := (mapRange this.Peers).map (fun entry => entry.2)
  let userPeerInfoList :=
    sortSliceStable (fun a b => strGt a.PeerPubKey b.PeerPubKey) userPeerInfoList
  (this, UserStakeInfo.serializeLoop c 0 userPeerInfoList w)

/-- The loop `for i := uint64(0); i < num; i++` of `(*UserStakeInfo).Deserialize`,
with `n` iterations left, from counter `i` on, over the map built so far. -/
def UserStakeInfo.deserializeLoop [DecidableEq K] (c : Codec K A) :
    Nat → Nat → List (K × UserPeerStakeInfo) → Reader →
      Except Error (List (K × UserPeerStakeInfo) × Reader)
  | 0, _, peers, r => .ok (peers, r)
  | n + 1, i, peers, r =>
    let info := UserPeerStakeInfo.zero
    match c.ReadString r with
    | .error err =>
      .error ("deserialze: read peer pub key failed, index " ++ toString i ++ ", err: " ++ err)
    | .ok (peerPubKey, r) =>
    let info := { info with PeerPubKey := peerPubKey }
    match c.DecodeString peerPubKey with
    | .error err => .error ("deserialze: decode param pub key failed, err: " ++ err)
    | .ok pubKeyData =>
    match c.DeserializePublicKey pubKeyData with
    | .error err => .error ("deserialze: deserialize param pub key failed, err: " ++ err)
    | .ok pubKey =>
    match c.ReadVarUint r with
    | .error err => .error ("deserialze: deserialize whole fee failed, err: " ++ err)
    | .ok (stakeAmount, r) =>
    let info := { info with StakeAmount := stakeAmount }
    match c.ReadVarUint r with
    | .error err => .error ("deserialze: deserialize whole fee failed, err: " ++ err)
    | .ok (unfreezeAmount, r) =>
    let info := { info with UnfreezeAmount := unfreezeAmount }
    UserStakeInfo.deserializeLoop c n (i + 1) (mapAssign peers pubKey info) r

/-- The method `(*UserStakeInfo).Deserialize`; on success the updated receiver and
the unread bytes are returned. -/
def UserStakeInfo.Deserialize [DecidableEq K] (c : Codec K A) (this : UserStakeInfo K)
    (r : Reader) : Except Error (UserStakeInfo K × Reader) :=
  match c.ReadVarUint r with
  | .error err => .error ("deserialze: read peers num failed, err: " ++ err)
  | .ok (num, r) =>
  let this := { this with Peers := some [] }
  match UserStakeInfo.deserializeLoop c num.val 0 (mapRange this.Peers) r with
  | .error err => .error err
  | .ok (peers, r) => .ok ({ this with Peers := some peers }, r)

/-- The map `this.Peers` at the moment the loop of `(*ViewInfo).Deserialize` stops,
whether it has run its `n` iterations or has returned an error: an entry is
assigned only at the end of an iteration in which nothing failed. -/
def ViewInfo.deserializeLoopPeers [DecidableEq K] [Inhabited A] (c : Codec K A) :
    Nat → List (K × PeerViewInfo A) → Reader → List (K × PeerViewInfo A)
  | 0, peers, _ => peers
  | n + 1, peers, r =>
    match PeerViewInfo.Deserialize c PeerViewInfo.zero r with
    | .error _ => peers
    | .ok (info, r) =>
    match c.DecodeString info.PeerPubKey with
    | .error _ => peers
    | .ok pubKeyData =>
    match c.DeserializePublicKey pubKeyData with
    | .error _ => peers
    | .ok pubKey => ViewInfo.deserializeLoopPeers c n (mapAssign peers pubKey info) r

/-- The receiver of `(*ViewInfo).Deserialize` after the call, whether the call
succeeded or returned an error: untouched when the count cannot be read, and
otherwise holding the fresh map with the entries assigned before the loop
stopped. -/
def ViewInfo.DeserializeReceiver [DecidableEq K] [Inhabited A] (c : Codec K A)
    (this : ViewInfo K A) (r : Reader) : ViewInfo K A :=
  match c.ReadVarUint r with
  | .error _ => this
  | .ok (num, r) =>
  let this := { this with Peers := some [] }
  { this with Peers := some (ViewInfo.deserializeLoopPeers c num.val (mapRange this.Peers) r) }

/-- The map `this.Peers` at the moment the loop of `(*UserStakeInfo).Deserialize`
stops, whether it has run its `n` iterations or has returned an error. -/
def UserStakeInfo.deserializeLoopPeers [DecidableEq K] (c : Codec K A) :
    Nat → List (K × UserPeerStakeInfo) → Reader → List (K × UserPeerStakeInfo)
  | 0, peers, _ => peers
  | n + 1, peers, r =>
    let info := UserPeerStakeInfo.zero
    match c.ReadString r with
    | .error _ => peers
    | .ok (peerPubKey, r) =>
    let info := { info with PeerPubKey := peerPubKey }
    match c.DecodeString peerPubKey with
    | .error _ => peers
    | .ok pubKeyData =>
    match c.DeserializePublicKey pubKeyData with
    | .error _ => peers
    | .ok pubKey =>
    match c.ReadVarUint r with
    | .error _ => peers
    | .ok (stakeAmount, r) =>
    let info := { info with StakeAmount := stakeAmount }
    match c.ReadVarUint r with
    | .error _ => peers
    | .ok (unfreezeAmount, r) =>
    let info := { info with UnfreezeAmount := unfreezeAmount }
    UserStakeInfo.deserializeLoopPeers c n (mapAssign peers pubKey info) r

/-- The receiver of `(*UserStakeInfo).Deserialize` after the call, whether the call
succeeded or returned an error. -/
def UserStakeInfo.DeserializeReceiver [DecidableEq K] (c : Codec K A)
    (this : UserStakeInfo K) (r : Reader) : UserStakeInfo K :=
  match c.ReadVarUint r with
  | .error _ => this
  | .ok (num, r) =>
  let this := { this with Peers := some [] }
  { this with
    Peers := some (UserStakeInfo.deserializeLoopPeers c num.val (mapRange this.Peers) r) }

/-- The slice `peerInfoList` of `(*ViewInfo).Serialize` once sorted: the records in
the order the method writes them. -/
def ViewInfo.peerInfoList (this : ViewInfo K A) : List (PeerViewInfo A) :=
  sortSliceStable (fun a b => strGt a.PeerPubKey b.PeerPubKey)
    ((mapRange this.Peers).map (fun entry => entry.2))

/-- The slice `userPeerInfoList` of `(*UserStakeInfo).Serialize` once sorted: the
records in the order the method writes them. -/
def UserStakeInfo.userPeerInfoList (this : UserStakeInfo K) : List UserPeerStakeInfo :=
  sortSliceStable (fun a b => strGt a.PeerPubKey b.PeerPubKey)
    ((mapRange this.Peers).map (fun entry => entry.2))

/-! ## Byte layouts of section 6 of the specification -/

/-- The byte layout the specification gives for a PeerRecord:
`string(peerKey)`, `address(owner)`, then the seven amounts as `varuint`s. -/
def PeerViewInfo.layout (c : Codec K A) (x : PeerViewInfo A) : List Byte :=
  c.encString x.PeerPubKey ++ c.encAddress x.Owner ++ c.encVarUint x.WholeFee ++
    c.encVarUint x.FeeBalance ++ c.encVarUint x.WholeStakeAmount ++
    c.encVarUint x.WholeUnfreezeAmount ++ c.encVarUint x.UserStakeAmount ++
    c.encVarUint x.MaxAuthorization ++ c.encVarUint x.Proportion

/-- The byte layout the specification gives for a UserPeerStake:
`string(peerKey)`, `varuint(stakeAmount)`, `varuint(unfreezeAmount)`. -/
def UserPeerStakeInfo.layout (c : Codec K A) (x : UserPeerStakeInfo) : List Byte :=
  c.encString x.PeerPubKey ++ c.encVarUint x.StakeAmount ++ c.encVarUint x.UnfreezeAmount

/-- The byte layout the specification gives for an EpochView whose records, in
the order they are emitted, are `xs`: `varuint(count)`, then the records. -/
def ViewInfo.layout (c : Codec K A) (xs : List (PeerViewInfo A)) : List Byte :=
  c.encVarUint (toUint64 xs.length) ++ (xs.map (PeerViewInfo.layout c)).flatten

/-- The byte layout the specification gives for a UserLedger whose records, in
the order they are emitted, are `xs`: `varuint(count)`, then the records. -/
def UserStakeInfo.layout (c : Codec K A) (xs : List UserPeerStakeInfo) : List Byte :=
  c.encVarUint (toUint64 xs.length) ++ (xs.map (UserPeerStakeInfo.layout c)).flatten

/-! ## Assumptions on the external primitives -/

/-- The primitive codecs round-trip: a reader applied to what the matching writer
wrote returns the value written and leaves the bytes that follow unread. -/
structure Codec.RoundTrips (c : Codec K A) : Prop where
  string : ∀ s rest, c.ReadString (c.encString s ++ rest) = .ok (s, rest)
  address : ∀ a rest, c.ReadAddress (c.encAddress a ++ rest) = .ok (a, rest)
  varUint : ∀ v rest, c.ReadVarUint (c.encVarUint v ++ rest) = .ok (v, rest)

/-- Each primitive reader fails on a strict initial segment of a primitive
encoding. -/
structure Codec.RejectsTruncated (c : Codec K A) : Prop where
  string : ∀ s p, p <+: c.encString s → p ≠ c.encString s →
    ∃ err, c.ReadString p = .error err
  address : ∀ a p, p <+: c.encAddress a → p ≠ c.encAddress a →
    ∃ err, c.ReadAddress p = .error err
  varUint : ∀ v p, p <+: c.encVarUint v → p ≠ c.encVarUint v →
    ∃ err, c.ReadVarUint p = .error err

/-- The hex string `s` derives the public key `k`: `hex.DecodeString` succeeds on
it and `keypair.DeserializePublicKey` parses the bytes as `k`. -/
def Codec.Derives (c : Codec K A) (s : String) (k : K) : Prop :=
  ∃ data, c.DecodeString s = .ok data ∧ c.DeserializePublicKey data = .ok k

/-- The key/string consistency invariant of a mapping of peer records: every
record is stored under the key its own `PeerPubKey` derives, and no key occurs
twice. -/
def ViewInfo.Consistent (c : Codec K A) (m : List (K × PeerViewInfo A)) : Prop :=
  (∀ e ∈ m, c.Derives e.2.PeerPubKey e.1) ∧ (m.map Prod.fst).Nodup

/-- The key/string consistency invariant of a mapping of user stakes. -/
def UserStakeInfo.Consistent (c : Codec K A) (m : List (K × UserPeerStakeInfo)) : Prop :=
  (∀ e ∈ m, c.Derives e.2.PeerPubKey e.1) ∧ (m.map Prod.fst).Nodup

end Source

/-! ## A sample instance of the primitives

A small self-delimiting codec, used to instantiate the theorems on concrete
values: integers and addresses are fixed-width little-endian, a string is its
characters, each announced by a byte `1` and written on four bytes, closed by a
byte `0`; a public key is any non-empty byte string. -/

namespace Sample

/-- The `n` low-order bytes of `v`, least significant first. -/
def encLE : Nat → Nat → List Byte
  | 0, _ => []
  | n + 1, v => ⟨v % 256, Nat.mod_lt _ (by decide)⟩ :: encLE n (v / 256)

/-- The number a little-endian byte string denotes. -/
def valLE : List Byte → Nat
  | [] => 0
  | b :: t => b.val + 256 * valLE t

/-- Reads `n` bytes as a little-endian number. -/
def readLE (n : Nat) (r : Reader) : Except Error (Nat × Reader) :=
  if n ≤ r.length then .ok (valLE (r.take n), r.drop n) else .error "unexpected EOF"

/-- Addresses of the sample codec: twenty bytes. -/
abbrev Address := Fin (256 ^ 20)

/-- The address a number denotes. -/
def toAddress (n : Nat) : Address := ⟨n % 256 ^ 20, Nat.mod_lt _ (by decide)⟩

/-- Public keys of the sample codec: byte strings. -/
abbrev PublicKey := List Byte

/-- The sample encoding of a string. -/
def encChars : List Char → List Byte
  | [] => [0]
  | ch :: t => 1 :: (encLE 4 ch.toNat ++ encChars t)

/-- The sample decoding of a string. -/
def readChars : Reader → Except Error (List Char × Reader)
  | [] => .error "unexpected EOF"
  | b :: r =>
    if b = 0 then .ok ([], r)
    else
      match r with
      | b0 :: b1 :: b2 :: b3 :: r =>
        match readChars r with
        | .error err => .error err
        | .ok (t, r) => .ok (Char.ofNat (valLE [b0, b1, b2, b3]) :: t, r)
      | _ => .error "unexpected EOF"

/-- The value of a hexadecimal digit. -/
def hexDigit (ch : Char) : Option Nat :=
  if 48 ≤ ch.toNat ∧ ch.toNat ≤ 57 then some (ch.toNat - 48)
  else if 97 ≤ ch.toNat ∧ ch.toNat ≤ 102 then some (ch.toNat - 87)
  else if 65 ≤ ch.toNat ∧ ch.toNat ≤ 70 then some (ch.toNat - 55)
  else none

/-- Hexadecimal decoding, two digits to the byte. -/
def hexDecode : List Char → Except Error (List Byte)
  | [] => .ok []
  | [_] => .error "encoding/hex: odd length hex string"
  | a :: b :: t =>
    match hexDigit a, hexDigit b with
    | some x, some y =>
      match hexDecode t with
      | .error err => .error err
      | .ok l => .ok (⟨(16 * x + y) % 256, Nat.mod_lt _ (by decide)⟩ :: l)
    | _, _ => .error "encoding/hex: invalid byte"

/-- The sample primitives. -/
def codec : Codec PublicKey Address where
  encString s := encChars s.toList
  encAddress a := encLE 20 a.val
  encVarUint v := encLE 8 v.val
  ReadString r :=
    match readChars r with
    | .error err => .error err
    | .ok (l, r) => .ok (String.mk l, r)
  ReadAddress r :=
    match readLE 20 r with
    | .error err => .error err
    | .ok (v, r) => .ok (toAddress v, r)
  ReadVarUint r :=
    match readLE 8 r with
    | .error err => .error err
    | .ok (v, r) => .ok (toUint64 v, r)
  DecodeString s := hexDecode s.toList
  DeserializePublicKey data :=
    if data = [] then .error "invalid public key" else .ok data

instance : Inhabited Address := ⟨toAddress 0⟩

/-- The key the hex strings "aa" and "AA" derive. -/
def keyAA : PublicKey := [170]

/-- The key the hex string "bb" derives. -/
def keyBB : PublicKey := [187]

/-- The record of the end-to-end example: `peerKey = "aa"`, `wholeFee = 100`,
`feeBalance = 40`, every other field zero. -/
def peerAA : PeerViewInfo Address :=
  { PeerViewInfo.zero with PeerPubKey := "aa", WholeFee := 100, FeeBalance := 40 }

/-- A record whose key string "AA" derives the same key as "aa". -/
def peerAAupper : PeerViewInfo Address :=
  { PeerViewInfo.zero with PeerPubKey := "AA", WholeFee := 7 }

/-- A record that breaks both numeric invariants of the data model: its fee
balance exceeds its whole fee and its user stake exceeds its whole stake. -/
def peerUnbalanced : PeerViewInfo Address :=
  { PeerViewInfo.zero with
    PeerPubKey := "aa", WholeFee := 10, FeeBalance := 40, WholeStakeAmount := 3,
    UserStakeAmount := 7 }

/-- A record with the given key string and every other field zero. -/
def peerNamed (s : String) : PeerViewInfo Address :=
  { PeerViewInfo.zero with PeerPubKey := s }

/-- The view of the end-to-end example. -/
def viewAA : ViewInfo PublicKey Address := { Peers := some [(keyAA, peerAA)] }

/-- A view whose records carry the key strings "b", "a", "c", visited in that order. -/
def viewBAC : ViewInfo PublicKey Address :=
  { Peers := some [([1], peerNamed "b"), ([2], peerNamed "a"), ([3], peerNamed "c")] }

/-- A user stake towards the peer "aa". -/
def stakeAA : UserPeerStakeInfo := { PeerPubKey := "aa", StakeAmount := 5, UnfreezeAmount := 2 }

/-- A user stake towards the peer "bb". -/
def stakeBB : UserPeerStakeInfo := { PeerPubKey := "bb", StakeAmount := 9, UnfreezeAmount := 0 }

/-- A ledger with two stakes. -/
def ledger : UserStakeInfo PublicKey := { Peers := some [(keyAA, stakeAA), (keyBB, stakeBB)] }

/-- A user stake whose key string is not hexadecimal. -/
def stakeZZ : UserPeerStakeInfo := { PeerPubKey := "zz", StakeAmount := 3, UnfreezeAmount := 4 }

/-- A user stake whose key string is hexadecimal but decodes to no public key. -/
def stakeEmpty : UserPeerStakeInfo := { PeerPubKey := "", StakeAmount := 3, UnfreezeAmount := 4 }

/-- A user stake with the key string "aa" and other amounts than `stakeAA`. -/
def stakeAAother : UserPeerStakeInfo :=
  { PeerPubKey := "aa", StakeAmount := 8, UnfreezeAmount := 1 }

/-- A record with the key string "aa" and other amounts than `peerAA`. -/
def peerAAother : PeerViewInfo Address :=
  { PeerViewInfo.zero with PeerPubKey := "aa", WholeFee := 1 }

/-- A record with the key string "bb". -/
def peerBB : PeerViewInfo Address :=
  { PeerViewInfo.zero with PeerPubKey := "bb", WholeStakeAmount := 12 }

end Sample

/-! # Theorems -/

section Lemmas

variable {K A : Type}

/-! ## The sink -/

theorem writer_Write_unbounded (w : Writer) (p : List Byte) (h : w.room = none) :
    w.Write p = .ok { buf := w.buf ++ p, room := none } := by
  cases w with
  | mk buf room =>
    simp only at h
    subst h
    rfl

theorem writer_Write_ok_buf {w w1 : Writer} {p : List Byte} (h : w.Write p = .ok w1) :
    w1.buf = w.buf ++ p := by
  cases w with
  | mk buf room =>
    cases room with
    | none =>
      simp only [Writer.Write, Except.ok.injEq] at h
      rw [← h]
    | some n =>
      simp only [Writer.Write] at h
      split at h
      · simp only [Except.ok.injEq] at h
        rw [← h]
      · simp at h

/-! ## Records -/

theorem peerViewInfo_Serialize_unbounded (c : Codec K A) (x : PeerViewInfo A) (w : Writer)
    (h : w.room = none) :
    x.Serialize c w = .ok { buf := w.buf ++ x.layout c, room := none } := by
  simp [PeerViewInfo.Serialize, PeerViewInfo.layout, Codec.WriteString, Codec.WriteAddress,
    Codec.WriteVarUint, writer_Write_unbounded, h, List.append_assoc]

theorem peerViewInfo_Serialize_ok_buf (c : Codec K A) (x : PeerViewInfo A) {w w1 : Writer}
    (h : x.Serialize c w = .ok w1) : w1.buf = w.buf ++ x.layout c := by
  unfold PeerViewInfo.Serialize at h
  simp only [Codec.WriteString, Codec.WriteAddress, Codec.WriteVarUint] at h
  repeat' split at h
  all_goals first
    | (simp at h; done)
    | skip
  rename_i _ _ h1 _ _ h2 _ _ h3 _ _ h4 _ _ h5 _ _ h6 _ _ h7 _ _ h8 _ _ h9
  simp only [Except.ok.injEq] at h
  subst h
  rw [writer_Write_ok_buf h9, writer_Write_ok_buf h8, writer_Write_ok_buf h7,
    writer_Write_ok_buf h6, writer_Write_ok_buf h5, writer_Write_ok_buf h4,
    writer_Write_ok_buf h3, writer_Write_ok_buf h2, writer_Write_ok_buf h1]
  simp [PeerViewInfo.layout, List.append_assoc]


theorem peerViewInfo_Deserialize_layout (c : Codec K A) (hc : c.RoundTrips)
    (x this0 : PeerViewInfo A) (rest : List Byte) :
    PeerViewInfo.Deserialize c this0 (x.layout c ++ rest) = .ok (x, rest) := by
  simp [PeerViewInfo.Deserialize, PeerViewInfo.layout, List.append_assoc, hc.string,
    hc.address, hc.varUint]

/-! ## Writing a collection -/

theorem viewInfo_serializeLoop_unbounded (c : Codec K A) (xs : List (PeerViewInfo A)) :
    ∀ (i : Nat) (w : Writer), w.room = none →
      ViewInfo.serializeLoop c i xs w =
        .ok { buf := w.buf ++ (xs.map (PeerViewInfo.layout c)).flatten, room := none } := by
  induction xs with
  | nil =>
    intro i w h
    cases w with
    | mk buf room =>
      simp only at h
      subst h
      simp [ViewInfo.serializeLoop]
  | cons x xs ih =>
    intro i w h
    simp [ViewInfo.serializeLoop, peerViewInfo_Serialize_unbounded c x w h, ih,
      List.append_assoc]

theorem viewInfo_serializeLoop_ok_buf (c : Codec K A) (xs : List (PeerViewInfo A)) :
    ∀ (i : Nat) (w w1 : Writer), ViewInfo.serializeLoop c i xs w = .ok w1 →
      w1.buf = w.buf ++ (xs.map (PeerViewInfo.layout c)).flatten := by
  induction xs with
  | nil =>
    intro i w w1 h
    simp only [ViewInfo.serializeLoop, Except.ok.injEq] at h
    simp [← h]
  | cons x xs ih =>
    intro i w w1 h
    simp only [ViewInfo.serializeLoop] at h
    split at h
    · simp at h
    · rename_i _ w2 h2
      rw [ih _ _ _ h, peerViewInfo_Serialize_ok_buf c x h2]
      simp [List.append_assoc]

theorem viewInfo_Serialize_unbounded (c : Codec K A) (v : ViewInfo K A) (w : Writer)
    (h : w.room = none) :
    (ViewInfo.Serialize c v w).2 =
      .ok { buf := w.buf ++ ViewInfo.layout c v.peerInfoList, room := none } := by
  have hlen : v.peerInfoList.length = mapLen v.Peers := by
    unfold ViewInfo.peerInfoList sortSliceStable
    rw [List.length_insertionSort]
    cases v with
    | mk peers => cases peers <;> simp [mapRange, mapLen]
  simp only [ViewInfo.Serialize, Codec.WriteVarUint, writer_Write_unbounded _ _ h]
  rw [viewInfo_serializeLoop_unbounded c _ 0 _ rfl]
  simp only [ViewInfo.peerInfoList] at hlen
  simp [ViewInfo.layout, hlen, ViewInfo.peerInfoList, List.append_assoc]

theorem viewInfo_Serialize_ok_buf (c : Codec K A) (v : ViewInfo K A) (w w1 : Writer)
    (h : (ViewInfo.Serialize c v w).2 = .ok w1) :
    w1.buf = w.buf ++ ViewInfo.layout c v.peerInfoList := by
  have hlen : v.peerInfoList.length = mapLen v.Peers := by
    unfold ViewInfo.peerInfoList sortSliceStable
    rw [List.length_insertionSort]
    cases v with
    | mk peers => cases peers <;> simp [mapRange, mapLen]
  simp only [ViewInfo.Serialize, Codec.WriteVarUint] at h
  split at h
  · simp at h
  · rename_i _ w2 h2
    simp only at h
    rw [viewInfo_serializeLoop_ok_buf c _ _ _ _ h, writer_Write_ok_buf h2]
    simp only [ViewInfo.peerInfoList] at hlen
    simp [ViewInfo.layout, hlen, ViewInfo.peerInfoList, List.append_assoc]

theorem userStakeInfo_serializeLoop_unbounded (c : Codec K A) (xs : List UserPeerStakeInfo) :
    ∀ (i : Nat) (w : Writer), w.room = none →
      UserStakeInfo.serializeLoop c i xs w =
        .ok { buf := w.buf ++ (xs.map (UserPeerStakeInfo.layout c)).flatten, room := none } := by
  induction xs with
  | nil =>
    intro i w h
    cases w with
    | mk buf room =>
      simp only at h
      subst h
      simp [UserStakeInfo.serializeLoop]
  | cons x xs ih =>
    intro i w h
    simp [UserStakeInfo.serializeLoop, Codec.WriteString, Codec.WriteVarUint,
      writer_Write_unbounded, h, ih, UserPeerStakeInfo.layout, List.append_assoc]

theorem userStakeInfo_serializeLoop_ok_buf (c : Codec K A) (xs : List UserPeerStakeInfo) :
    ∀ (i : Nat) (w w1 : Writer), UserStakeInfo.serializeLoop c i xs w = .ok w1 →
      w1.buf = w.buf ++ (xs.map (UserPeerStakeInfo.layout c)).flatten := by
  induction xs with
  | nil =>
    intro i w w1 h
    simp only [UserStakeInfo.serializeLoop, Except.ok.injEq] at h
    simp [← h]
  | cons x xs ih =>
    intro i w w1 h
    simp only [UserStakeInfo.serializeLoop, Codec.WriteString, Codec.WriteVarUint] at h
    split at h
    · simp at h
    · rename_i _ w2 h2
      split at h
      · simp at h
      · rename_i _ w3 h3
        split at h
        · simp at h
        · rename_i _ w4 h4
          rw [ih _ _ _ h, writer_Write_ok_buf h4, writer_Write_ok_buf h3,
            writer_Write_ok_buf h2]
          simp [UserPeerStakeInfo.layout, List.append_assoc]

theorem userStakeInfo_Serialize_unbounded (c : Codec K A) (v : UserStakeInfo K) (w : Writer)
    (h : w.room = none) :
    (UserStakeInfo.Serialize c v w).2 =
      .ok { buf := w.buf ++ UserStakeInfo.layout c v.userPeerInfoList, room := none } := by
  have hlen : v.userPeerInfoList.length = mapLen v.Peers := by
    unfold UserStakeInfo.userPeerInfoList sortSliceStable
    rw [List.length_insertionSort]
    cases v with
    | mk peers => cases peers <;> simp [mapRange, mapLen]
  simp only [UserStakeInfo.Serialize, Codec.WriteVarUint, writer_Write_unbounded _ _ h]
  rw [userStakeInfo_serializeLoop_unbounded c _ 0 _ rfl]
  simp only [UserStakeInfo.userPeerInfoList] at hlen
  simp [UserStakeInfo.layout, hlen, UserStakeInfo.userPeerInfoList, List.append_assoc]

theorem userStakeInfo_Serialize_ok_buf (c : Codec K A) (v : UserStakeInfo K) (w w1 : Writer)
    (h : (UserStakeInfo.Serialize c v w).2 = .ok w1) :
    w1.buf = w.buf ++ UserStakeInfo.layout c v.userPeerInfoList := by
  have hlen : v.userPeerInfoList.length = mapLen v.Peers := by
    unfold UserStakeInfo.userPeerInfoList sortSliceStable
    rw [List.length_insertionSort]
    cases v with
    | mk peers => cases peers <;> simp [mapRange, mapLen]
  simp only [UserStakeInfo.Serialize, Codec.WriteVarUint] at h
  split at h
  · simp at h
  · rename_i _ w2 h2
    simp only at h
    rw [userStakeInfo_serializeLoop_ok_buf c _ _ _ _ h, writer_Write_ok_buf h2]
    simp only [UserStakeInfo.userPeerInfoList] at hlen
    simp [UserStakeInfo.layout, hlen, UserStakeInfo.userPeerInfoList, List.append_assoc]


/-! ## The canonical order -/

theorem strGt_eq_true_iff (a b : String) : strGt a b = true ↔ b < a := by
  simp [strGt, String.lt_iff_toList_lt]

theorem strGt_eq_false_iff (a b : String) : strGt a b = false ↔ a ≤ b := by
  rw [← not_lt, ← strGt_eq_true_iff]
  simp

theorem sortSliceStable_perm {α : Type} (less : α → α → Bool) (l : List α) :
    (sortSliceStable less l).Perm l :=
  List.perm_insertionSort _ l

theorem sortSliceStable_sorted {α : Type} (key : α → String) (l : List α) :
    (sortSliceStable (fun a b => strGt (key a) (key b)) l).Sorted
      (fun a b => key b ≤ key a) := by
  have ht : IsTotal α (fun a b => strGt (key b) (key a) = false) :=
    ⟨fun a b => by
      simp only [strGt_eq_false_iff]
      exact le_total _ _⟩
  have hr : IsTrans α (fun a b => strGt (key b) (key a) = false) :=
    ⟨fun a b d h1 h2 => by
      simp only [strGt_eq_false_iff] at h1 h2 ⊢
      exact le_trans h2 h1⟩
  have h := @List.sorted_insertionSort α (fun a b => strGt (key b) (key a) = false) _ ht hr l
  unfold sortSliceStable
  exact List.Pairwise.imp (fun {a b} hab => (strGt_eq_false_iff _ _).mp hab) h

theorem sortSliceStable_strict {α : Type} (key : α → String) (l : List α)
    (hnd : (l.map key).Nodup) :
    (sortSliceStable (fun a b => strGt (key a) (key b)) l).Sorted
      (fun a b => key b < key a) := by
  have hs := sortSliceStable_sorted key l
  have hp := sortSliceStable_perm (fun a b => strGt (key a) (key b)) l
  have hnd2 : ((sortSliceStable (fun a b => strGt (key a) (key b)) l).map key).Nodup :=
    (List.Perm.nodup_iff (hp.map key)).mpr hnd
  unfold List.Nodup at hnd2
  rw [List.pairwise_map] at hnd2
  exact List.Pairwise.imp₂ (fun a b hle hne => lt_of_le_of_ne hle (Ne.symm hne)) hs hnd2

theorem sortSliceStable_eq_of_perm {α : Type} (key : α → String) {l1 l2 : List α}
    (hp : l1.Perm l2) (hnd : (l1.map key).Nodup) :
    sortSliceStable (fun a b => strGt (key a) (key b)) l1 =
      sortSliceStable (fun a b => strGt (key a) (key b)) l2 := by
  have h1 := sortSliceStable_strict key l1 hnd
  have h2 := sortSliceStable_strict key l2 ((List.Perm.nodup_iff (hp.map key)).mp hnd)
  have hanti : IsAntisymm α (fun a b => key b < key a) :=
    ⟨fun a b hab hba => absurd hab (lt_asymm hba)⟩
  have hperm : (sortSliceStable (fun a b => strGt (key a) (key b)) l1).Perm
      (sortSliceStable (fun a b => strGt (key a) (key b)) l2) :=
    ((sortSliceStable_perm _ l1).trans hp).trans (sortSliceStable_perm _ l2).symm
  exact @List.eq_of_perm_of_sorted α (fun a b => key b < key a) hanti _ _ hperm h1 h2

theorem orderedInsert_map {α β : Type} (f : α → β) (r : β → β → Prop) [DecidableRel r]
    (a : α) (l : List α) :
    (List.orderedInsert (fun x y => r (f x) (f y)) a l).map f =
      List.orderedInsert r (f a) (l.map f) := by
  induction l with
  | nil => rfl
  | cons b l ih =>
    simp only [List.orderedInsert, List.map_cons]
    split
    · rfl
    · simp [ih]

theorem sortSliceStable_map {α β : Type} (f : α → β) (less : β → β → Bool) (l : List α) :
    sortSliceStable less (l.map f) =
      (sortSliceStable (fun x y => less (f x) (f y)) l).map f := by
  unfold sortSliceStable
  induction l with
  | nil => rfl
  | cons a l ih =>
    simp only [List.map_cons, List.insertionSort]
    rw [ih]
    exact (orderedInsert_map f (fun a b => less b a = false) a _).symm

/-! ## Go maps -/

theorem mapAssign_of_not_mem {V : Type} [DecidableEq K] (m : List (K × V)) (k : K) (v : V)
    (h : k ∉ m.map Prod.fst) : mapAssign m k v = m ++ [(k, v)] := by
  induction m with
  | nil => rfl
  | cons e m ih =>
    obtain ⟨k0, v0⟩ := e
    simp only [List.map_cons, List.mem_cons, not_or] at h
    simp only [mapAssign]
    rw [if_neg (fun hk => h.1 hk.symm), ih h.2]
    rfl

theorem foldl_mapAssign_of_nodup {V : Type} [DecidableEq K] (es : List (K × V)) :
    ∀ peers : List (K × V), ((peers ++ es).map Prod.fst).Nodup →
      es.foldl (fun m e => mapAssign m e.1 e.2) peers = peers ++ es := by
  induction es with
  | nil => intro peers _; simp
  | cons e es ih =>
    intro peers hnd
    have hnot : e.1 ∉ peers.map Prod.fst := by
      intro hmem
      rw [List.map_append, List.nodup_append] at hnd
      exact hnd.2.2 hmem (by simp)
    simp only [List.foldl_cons]
    rw [mapAssign_of_not_mem _ _ _ hnot, ih]
    · simp
    · simpa using hnd

theorem mapAssign_keys {V : Type} [DecidableEq K] (m : List (K × V)) (k : K) (v : V) :
    ∀ k1, k1 ∈ (mapAssign m k v).map Prod.fst ↔ k1 = k ∨ k1 ∈ m.map Prod.fst := by
  induction m with
  | nil => intro k1; simp [mapAssign]
  | cons e m ih =>
    obtain ⟨k0, v0⟩ := e
    intro k1
    simp only [mapAssign]
    split
    · rename_i hk
      subst hk
      simp
    · simp only [List.map_cons, List.mem_cons, ih]
      tauto

theorem mapAssign_nodup {V : Type} [DecidableEq K] (m : List (K × V)) (k : K) (v : V)
    (h : (m.map Prod.fst).Nodup) : ((mapAssign m k v).map Prod.fst).Nodup := by
  induction m with
  | nil => simp [mapAssign]
  | cons e m ih =>
    obtain ⟨k0, v0⟩ := e
    simp only [List.map_cons, List.nodup_cons] at h
    simp only [mapAssign]
    split
    · rename_i hk
      subst hk
      simpa using h
    · rename_i hk
      simp only [List.map_cons, List.nodup_cons]
      refine ⟨?_, ih h.2⟩
      rw [mapAssign_keys]
      intro hmem
      rcases hmem with h1 | h1
      · exact hk h1
      · exact h.1 h1

theorem mapIndex_eq_some_iff {V : Type} [DecidableEq K] (m : List (K × V))
    (h : (m.map Prod.fst).Nodup) (k : K) (v : V) : mapIndex m k = some v ↔ (k, v) ∈ m := by
  induction m with
  | nil => simp [mapIndex]
  | cons e m ih =>
    obtain ⟨k0, v0⟩ := e
    simp only [List.map_cons, List.nodup_cons] at h
    simp only [mapIndex, List.mem_cons, Prod.mk.injEq]
    split
    · rename_i hk
      subst hk
      constructor
      · intro hv
        left
        exact ⟨rfl, (Option.some.inj hv).symm⟩
      · rintro (⟨_, hv⟩ | hmem)
        · rw [hv]
        · exact absurd (List.mem_map_of_mem Prod.fst hmem) h.1
    · rename_i hk
      rw [ih h.2]
      constructor
      · intro hmem
        exact Or.inr hmem
      · rintro (⟨hk1, _⟩ | hmem)
        · exact absurd hk1.symm hk
        · exact hmem

theorem mapIndex_eq_none_iff {V : Type} [DecidableEq K] (m : List (K × V)) (k : K) :
    mapIndex m k = none ↔ k ∉ m.map Prod.fst := by
  induction m with
  | nil => simp [mapIndex]
  | cons e m ih =>
    obtain ⟨k0, v0⟩ := e
    simp only [mapIndex, List.map_cons, List.mem_cons, not_or]
    split
    · rename_i hk
      simp [hk]
    · rename_i hk
      rw [ih]
      constructor
      · intro h
        exact ⟨fun h1 => hk h1.symm, h⟩
      · intro h
        exact h.2


/-! ## Reading a collection -/

theorem toUint64_val (n : Nat) (h : n < 2 ^ 64) : (toUint64 n).val = n := by
  show n % 2 ^ 64 = n
  exact Nat.mod_eq_of_lt h

theorem viewInfo_deserializeLoop_layout [DecidableEq K] [Inhabited A] (c : Codec K A)
    (hc : c.RoundTrips) (es : List (K × PeerViewInfo A)) :
    ∀ (i : Nat) (peers : List (K × PeerViewInfo A)) (rest : List Byte),
      (∀ e ∈ es, c.Derives e.2.PeerPubKey e.1) →
      ViewInfo.deserializeLoop c es.length i peers
          ((es.map (fun e => e.2.layout c)).flatten ++ rest) =
        .ok (es.foldl (fun m e => mapAssign m e.1 e.2) peers, rest) := by
  induction es with
  | nil =>
    intro i peers rest _
    simp [ViewInfo.deserializeLoop]
  | cons e es ih =>
    intro i peers rest hall
    obtain ⟨data, hd, hk⟩ := hall e (List.mem_cons_self _ _)
    simp only [List.length_cons, List.map_cons, List.flatten_cons, List.append_assoc,
      ViewInfo.deserializeLoop, peerViewInfo_Deserialize_layout c hc, hd, hk, List.foldl_cons]
    exact ih _ _ _ (fun e1 he1 => hall e1 (List.mem_cons_of_mem _ he1))

theorem viewInfo_Deserialize_layout [DecidableEq K] [Inhabited A] (c : Codec K A)
    (hc : c.RoundTrips) (es : List (K × PeerViewInfo A)) (hlen : es.length < 2 ^ 64)
    (hall : ∀ e ∈ es, c.Derives e.2.PeerPubKey e.1) (this0 : ViewInfo K A)
    (rest : List Byte) :
    ViewInfo.Deserialize c this0 (ViewInfo.layout c (es.map Prod.snd) ++ rest) =
      .ok ({ Peers := some (es.foldl (fun m e => mapAssign m e.1 e.2) []) }, rest) := by
  have h := viewInfo_deserializeLoop_layout c hc es 0 [] rest hall
  simp only [ViewInfo.Deserialize, ViewInfo.layout, List.append_assoc, hc.varUint,
    List.length_map, toUint64_val _ hlen, mapRange, List.map_map]
  have hfun : (PeerViewInfo.layout c ∘ Prod.snd) =
      (fun e : K × PeerViewInfo A => e.2.layout c) := rfl
  rw [hfun, h]

theorem userStakeInfo_deserializeLoop_layout [DecidableEq K] (c : Codec K A)
    (hc : c.RoundTrips) (es : List (K × UserPeerStakeInfo)) :
    ∀ (i : Nat) (peers : List (K × UserPeerStakeInfo)) (rest : List Byte),
      (∀ e ∈ es, c.Derives e.2.PeerPubKey e.1) →
      UserStakeInfo.deserializeLoop c es.length i peers
          ((es.map (fun e => e.2.layout c)).flatten ++ rest) =
        .ok (es.foldl (fun m e => mapAssign m e.1 e.2) peers, rest) := by
  induction es with
  | nil =>
    intro i peers rest _
    simp [UserStakeInfo.deserializeLoop]
  | cons e es ih =>
    intro i peers rest hall
    obtain ⟨data, hd, hk⟩ := hall e (List.mem_cons_self _ _)
    simp only [List.length_cons, List.map_cons, List.flatten_cons, List.append_assoc,
      UserStakeInfo.deserializeLoop, UserPeerStakeInfo.layout, hc.string, hc.varUint, hd, hk,
      List.foldl_cons]
    have h := ih (i + 1) (mapAssign peers e.1 e.2) rest
      (fun e1 he1 => hall e1 (List.mem_cons_of_mem _ he1))
    simpa [UserPeerStakeInfo.layout, List.append_assoc] using h

theorem userStakeInfo_Deserialize_layout [DecidableEq K] (c : Codec K A)
    (hc : c.RoundTrips) (es : List (K × UserPeerStakeInfo)) (hlen : es.length < 2 ^ 64)
    (hall : ∀ e ∈ es, c.Derives e.2.PeerPubKey e.1) (this0 : UserStakeInfo K)
    (rest : List Byte) :
    UserStakeInfo.Deserialize c this0 (UserStakeInfo.layout c (es.map Prod.snd) ++ rest) =
      .ok ({ Peers := some (es.foldl (fun m e => mapAssign m e.1 e.2) []) }, rest) := by
  have h := userStakeInfo_deserializeLoop_layout c hc es 0 [] rest hall
  simp only [UserStakeInfo.Deserialize, UserStakeInfo.layout, List.append_assoc, hc.varUint,
    List.length_map, toUint64_val _ hlen, mapRange, List.map_map]
  have hfun : (UserPeerStakeInfo.layout c ∘ Prod.snd) =
      (fun e : K × UserPeerStakeInfo => e.2.layout c) := rfl
  rw [hfun, h]


end Lemmas

/-! ## The sample primitives satisfy the assumptions -/

namespace Sample

theorem encLE_length : ∀ (n v : Nat), (encLE n v).length = n
  | 0, _ => rfl
  | n + 1, v => by simp [encLE, encLE_length n]

theorem valLE_encLE : ∀ (n v : Nat), valLE (encLE n v) = v % 256 ^ n
  | 0, v => by simp [encLE, valLE, Nat.mod_one]
  | n + 1, v => by
    simp only [encLE, valLE, valLE_encLE n]
    rw [pow_succ', Nat.mod_mul]

theorem readLE_encLE (n v : Nat) (rest : List Byte) :
    readLE n (encLE n v ++ rest) = .ok (v % 256 ^ n, rest) := by
  have hl := encLE_length n v
  unfold readLE
  rw [if_pos (by simp [hl])]
  rw [List.take_left' hl, List.drop_left' hl, valLE_encLE]

theorem length_lt_of_strict {α : Type} {p l : List α} (hp : p <+: l) (hne : p ≠ l) :
    p.length < l.length := by
  rcases Nat.lt_or_ge p.length l.length with h | h
  · exact h
  · exact absurd (hp.eq_of_length (Nat.le_antisymm hp.length_le h)) hne

theorem readLE_truncated (n v : Nat) (p : List Byte) (hp : p <+: encLE n v)
    (hne : p ≠ encLE n v) : readLE n p = .error "unexpected EOF" := by
  have h := length_lt_of_strict hp hne
  rw [encLE_length] at h
  unfold readLE
  rw [if_neg (by omega)]

theorem ofNat_valLE_encLE (ch : Char) : Char.ofNat (valLE (encLE 4 ch.toNat)) = ch := by
  have hlt : ch.toNat < 256 ^ 4 := by
    have h := ch.val.val.isLt
    exact h
  rw [valLE_encLE, Nat.mod_eq_of_lt hlt, Char.ofNat_toNat]

theorem readChars_encChars (rest : List Byte) :
    ∀ l : List Char, readChars (encChars l ++ rest) = .ok (l, rest)
  | [] => by
    rw [readChars.eq_def]
    simp [encChars]
  | ch :: t => by
    have h := ofNat_valLE_encLE ch
    simp only [encLE] at h
    rw [readChars.eq_def]
    simp [encChars, encLE, readChars_encChars rest t, h]

theorem readChars_truncated :
    ∀ (l : List Char) (p : List Byte), p <+: encChars l → p ≠ encChars l →
      ∃ err, readChars p = .error err
  | [], p, hp, hne => by
    have h := length_lt_of_strict hp hne
    simp only [encChars, List.length_singleton, Nat.lt_one_iff, List.length_eq_zero] at h
    subst h
    exact ⟨_, rfl⟩
  | ch :: t, p, hp, hne => by
    simp only [encChars, encLE, List.cons_append, List.nil_append] at hp hne
    rcases p with _ | ⟨a, p⟩
    · exact ⟨_, rfl⟩
    rw [List.cons_prefix_cons] at hp
    obtain ⟨rfl, hp⟩ := hp
    rcases p with _ | ⟨a0, p⟩
    · exact ⟨"unexpected EOF", rfl⟩
    rw [List.cons_prefix_cons] at hp
    obtain ⟨rfl, hp⟩ := hp
    rcases p with _ | ⟨a1, p⟩
    · exact ⟨"unexpected EOF", rfl⟩
    rw [List.cons_prefix_cons] at hp
    obtain ⟨rfl, hp⟩ := hp
    rcases p with _ | ⟨a2, p⟩
    · exact ⟨"unexpected EOF", rfl⟩
    rw [List.cons_prefix_cons] at hp
    obtain ⟨rfl, hp⟩ := hp
    rcases p with _ | ⟨a3, p⟩
    · exact ⟨"unexpected EOF", rfl⟩
    rw [List.cons_prefix_cons] at hp
    obtain ⟨rfl, hp⟩ := hp
    have hne1 : p ≠ encChars t := by
      intro h
      apply hne
      rw [h]
    obtain ⟨err, herr⟩ := readChars_truncated t p hp hne1
    refine ⟨err, ?_⟩
    rw [readChars.eq_def]
    simp [herr]

theorem codec_roundTrips : codec.RoundTrips where
  string s rest := by
    simp only [codec, readChars_encChars]
    rfl
  address a rest := by
    have h : toAddress (a.val % 256 ^ 20) = a := by
      apply Fin.ext
      show a.val % 256 ^ 20 % 256 ^ 20 = a.val
      rw [Nat.mod_mod, Nat.mod_eq_of_lt a.isLt]
    simp only [codec, readLE_encLE, h]
  varUint v rest := by
    have h : toUint64 (v.val % 256 ^ 8) = v := by
      apply Fin.ext
      show v.val % 256 ^ 8 % 2 ^ 64 = v.val
      have hv : v.val < 2 ^ 64 := v.isLt
      omega
    simp only [codec, readLE_encLE, h]

theorem codec_rejectsTruncated : codec.RejectsTruncated where
  string s p hp hne := by
    obtain ⟨err, herr⟩ := readChars_truncated s.toList p hp hne
    exact ⟨err, by simp only [codec, herr]⟩
  address a p hp hne :=
    ⟨"unexpected EOF", by simp only [codec, readLE_truncated 20 a.val p hp hne]⟩
  varUint v p hp hne :=
    ⟨"unexpected EOF", by simp only [codec, readLE_truncated 8 v.val p hp hne]⟩

end Sample


/-! # The claims -/

section Claims

variable {K A : Type}

/-- C6. PeerRecord byte layout: on a sink that accepts every write
`PeerViewInfo.Serialize` succeeds, and whenever it succeeds the bytes it has
appended to the sink are exactly `string(peerKey)`, `address(owner)`,
`varuint(wholeFee)`, `varuint(feeBalance)`, `varuint(wholeStakeAmount)`,
`varuint(wholeUnfreezeAmount)`, `varuint(userStakeAmount)`,
`varuint(maxAuthorization)`, `varuint(proportion)`, in this order. -/
theorem peerViewInfo_Serialize_emits_layout (c : Codec K A) (x : PeerViewInfo A) (w : Writer) :
    (w.room = none → ∃ w1, x.Serialize c w = .ok w1) ∧
    ∀ w1, x.Serialize c w = .ok w1 →
      w1.buf = w.buf ++ (c.encString x.PeerPubKey ++ c.encAddress x.Owner ++
        c.encVarUint x.WholeFee ++ c.encVarUint x.FeeBalance ++
        c.encVarUint x.WholeStakeAmount ++ c.encVarUint x.WholeUnfreezeAmount ++
        c.encVarUint x.UserStakeAmount ++ c.encVarUint x.MaxAuthorization ++
        c.encVarUint x.Proportion) :=
  ⟨fun h => ⟨_, peerViewInfo_Serialize_unbounded c x w h⟩,
    fun _ h => peerViewInfo_Serialize_ok_buf c x h⟩

/-- C7. PeerRecord round trip, with no numeric validation: if the primitive
codecs round-trip then, for every record `x` whatsoever, `PeerViewInfo.Serialize`
into an empty buffer succeeds and `PeerViewInfo.Deserialize` of the bytes written
succeeds, consumes them all and returns `x`, whatever the receiver held before. -/
theorem peerViewInfo_roundTrip (c : Codec K A) (hc : c.RoundTrips) (x this0 : PeerViewInfo A) :
    ∃ w, x.Serialize c Writer.buffer = .ok w ∧
      PeerViewInfo.Deserialize c this0 w.buf = .ok (x, []) := by
  refine ⟨_, peerViewInfo_Serialize_unbounded c x Writer.buffer rfl, ?_⟩
  have h := peerViewInfo_Deserialize_layout c hc x this0 []
  simpa [Writer.buffer] using h

/-- Witness of C7 on a record that violates `feeBalance ≤ wholeFee` and
`userStakeAmount ≤ wholeStakeAmount`. -/
theorem peerViewInfo_roundTrip_witness :
    Sample.codec.RoundTrips ∧
    ¬ (Sample.peerUnbalanced.FeeBalance ≤ Sample.peerUnbalanced.WholeFee) ∧
    ¬ (Sample.peerUnbalanced.UserStakeAmount ≤ Sample.peerUnbalanced.WholeStakeAmount) ∧
    ∃ w, Sample.peerUnbalanced.Serialize Sample.codec Writer.buffer = .ok w ∧
      PeerViewInfo.Deserialize Sample.codec PeerViewInfo.zero w.buf =
        .ok (Sample.peerUnbalanced, []) :=
  ⟨Sample.codec_roundTrips, by decide, by decide,
    peerViewInfo_roundTrip Sample.codec Sample.codec_roundTrips Sample.peerUnbalanced
      PeerViewInfo.zero⟩


/-- C4. EpochView canonical layout: for every `ViewInfo` with `n` entries
(`n` a `uint64`), `ViewInfo.Serialize` succeeds on a sink that accepts every
write, and whenever it succeeds the bytes appended to the sink are `varuint(n)`
followed by the PeerRecord encodings of a list `xs` that is a permutation of the
records of the mapping, with non-increasing `PeerPubKey` strings, strictly
decreasing when the strings are pairwise distinct. -/
theorem viewInfo_Serialize_canonical (c : Codec K A) (v : ViewInfo K A) (w : Writer)
    (hlen : mapLen v.Peers < 2 ^ 64) :
    (w.room = none → ∃ w1, (ViewInfo.Serialize c v w).2 = .ok w1) ∧
    ∀ w1, (ViewInfo.Serialize c v w).2 = .ok w1 →
      ∃ xs : List (PeerViewInfo A),
        xs.Perm ((mapRange v.Peers).map Prod.snd) ∧
        xs.Sorted (fun a b => b.PeerPubKey ≤ a.PeerPubKey) ∧
        (((mapRange v.Peers).map (fun e => e.2.PeerPubKey)).Nodup →
          xs.Sorted (fun a b => b.PeerPubKey < a.PeerPubKey)) ∧
        w1.buf = w.buf ++ c.encVarUint ⟨mapLen v.Peers, hlen⟩ ++
          (xs.map (PeerViewInfo.layout c)).flatten := by
  refine ⟨fun h => ⟨_, viewInfo_Serialize_unbounded c v w h⟩, fun w1 h => ?_⟩
  have hl : v.peerInfoList.length = mapLen v.Peers := by
    unfold ViewInfo.peerInfoList sortSliceStable
    rw [List.length_insertionSort]
    cases v with
    | mk peers => cases peers <;> simp [mapRange, mapLen]
  have hn : toUint64 v.peerInfoList.length = ⟨mapLen v.Peers, hlen⟩ := by
    apply Fin.ext
    rw [hl]
    exact toUint64_val _ hlen
  refine ⟨v.peerInfoList, sortSliceStable_perm _ _,
    sortSliceStable_sorted (fun a : PeerViewInfo A => a.PeerPubKey) _, ?_, ?_⟩
  · intro hnd
    refine sortSliceStable_strict (fun a : PeerViewInfo A => a.PeerPubKey) _ ?_
    simpa [List.map_map, Function.comp_def] using hnd
  · rw [viewInfo_Serialize_ok_buf c v w w1 h, ViewInfo.layout, hn, List.append_assoc]

/-- Witness of C4: the records with key strings "b", "a", "c" are written in the
order "c", "b", "a". -/
theorem viewInfo_Serialize_canonical_witness :
    mapLen Sample.viewBAC.Peers < 2 ^ 64 ∧
    (∃ w1, (ViewInfo.Serialize Sample.codec Sample.viewBAC Writer.buffer).2 = .ok w1 ∧
      w1.buf = Sample.codec.encVarUint 3 ++
        (PeerViewInfo.layout Sample.codec (Sample.peerNamed "c") ++
          PeerViewInfo.layout Sample.codec (Sample.peerNamed "b") ++
          PeerViewInfo.layout Sample.codec (Sample.peerNamed "a"))) ∧
    ∀ w1, (ViewInfo.Serialize Sample.codec Sample.viewBAC Writer.buffer).2 = .ok w1 →
      ∃ xs : List (PeerViewInfo Sample.Address),
        xs.Perm ((mapRange Sample.viewBAC.Peers).map Prod.snd) ∧
        xs.Sorted (fun a b => b.PeerPubKey ≤ a.PeerPubKey) ∧
        (((mapRange Sample.viewBAC.Peers).map (fun e => e.2.PeerPubKey)).Nodup →
          xs.Sorted (fun a b => b.PeerPubKey < a.PeerPubKey)) ∧
        w1.buf = Writer.buffer.buf ++ Sample.codec.encVarUint ⟨3, by decide⟩ ++
          (xs.map (PeerViewInfo.layout Sample.codec)).flatten :=
  ⟨by decide, ⟨_, rfl, rfl⟩,
    (viewInfo_Serialize_canonical Sample.codec Sample.viewBAC Writer.buffer (by decide)).2⟩

/-- C5. UserLedger canonical layout: for every `UserStakeInfo` with `n` entries
(`n` a `uint64`), `UserStakeInfo.Serialize` succeeds on a sink that accepts every
write, and whenever it succeeds the bytes appended to the sink are `varuint(n)`
followed, for each record of a list `xs` that is a permutation of the records of
the mapping with non-increasing `PeerPubKey` strings (strictly decreasing when
they are pairwise distinct), by `string(peerKey)`, `varuint(stakeAmount)`,
`varuint(unfreezeAmount)`, and nothing else. -/
theorem userStakeInfo_Serialize_canonical (c : Codec K A) (v : UserStakeInfo K) (w : Writer)
    (hlen : mapLen v.Peers < 2 ^ 64) :
    (w.room = none → ∃ w1, (UserStakeInfo.Serialize c v w).2 = .ok w1) ∧
    ∀ w1, (UserStakeInfo.Serialize c v w).2 = .ok w1 →
      ∃ xs : List UserPeerStakeInfo,
        xs.Perm ((mapRange v.Peers).map Prod.snd) ∧
        xs.Sorted (fun a b => b.PeerPubKey ≤ a.PeerPubKey) ∧
        (((mapRange v.Peers).map (fun e => e.2.PeerPubKey)).Nodup →
          xs.Sorted (fun a b => b.PeerPubKey < a.PeerPubKey)) ∧
        w1.buf = w.buf ++ c.encVarUint ⟨mapLen v.Peers, hlen⟩ ++
          (xs.map (fun x => c.encString x.PeerPubKey ++ c.encVarUint x.StakeAmount ++
            c.encVarUint x.UnfreezeAmount)).flatten := by
  refine ⟨fun h => ⟨_, userStakeInfo_Serialize_unbounded c v w h⟩, fun w1 h => ?_⟩
  have hl : v.userPeerInfoList.length = mapLen v.Peers := by
    unfold UserStakeInfo.userPeerInfoList sortSliceStable
    rw [List.length_insertionSort]
    cases v with
    | mk peers => cases peers <;> simp [mapRange, mapLen]
  have hn : toUint64 v.userPeerInfoList.length = ⟨mapLen v.Peers, hlen⟩ := by
    apply Fin.ext
    rw [hl]
    exact toUint64_val _ hlen
  refine ⟨v.userPeerInfoList, sortSliceStable_perm _ _,
    sortSliceStable_sorted (fun a : UserPeerStakeInfo => a.PeerPubKey) _, ?_, ?_⟩
  · intro hnd
    refine sortSliceStable_strict (fun a : UserPeerStakeInfo => a.PeerPubKey) _ ?_
    simpa [List.map_map, Function.comp_def] using hnd
  · rw [userStakeInfo_Serialize_ok_buf c v w w1 h, UserStakeInfo.layout, hn, List.append_assoc]
    rfl

/-- Witness of C5 on a ledger with the stakes "aa" and "bb": "bb" is written
first. -/
theorem userStakeInfo_Serialize_canonical_witness :
    mapLen Sample.ledger.Peers < 2 ^ 64 ∧
    (∃ w1, (UserStakeInfo.Serialize Sample.codec Sample.ledger Writer.buffer).2 = .ok w1 ∧
      w1.buf = Sample.codec.encVarUint 2 ++
        (Sample.codec.encString "bb" ++ Sample.codec.encVarUint 9 ++
            Sample.codec.encVarUint 0 ++
          (Sample.codec.encString "aa" ++ Sample.codec.encVarUint 5 ++
            Sample.codec.encVarUint 2))) ∧
    ∀ w1, (UserStakeInfo.Serialize Sample.codec Sample.ledger Writer.buffer).2 = .ok w1 →
      ∃ xs : List UserPeerStakeInfo,
        xs.Perm ((mapRange Sample.ledger.Peers).map Prod.snd) ∧
        xs.Sorted (fun a b => b.PeerPubKey ≤ a.PeerPubKey) ∧
        (((mapRange Sample.ledger.Peers).map (fun e => e.2.PeerPubKey)).Nodup →
          xs.Sorted (fun a b => b.PeerPubKey < a.PeerPubKey)) ∧
        w1.buf = Writer.buffer.buf ++ Sample.codec.encVarUint ⟨2, by decide⟩ ++
          (xs.map (fun x => Sample.codec.encString x.PeerPubKey ++
            Sample.codec.encVarUint x.StakeAmount ++
            Sample.codec.encVarUint x.UnfreezeAmount)).flatten :=
  ⟨by decide, ⟨_, rfl, rfl⟩,
    (userStakeInfo_Serialize_canonical Sample.codec Sample.ledger Writer.buffer
      (by decide)).2⟩


theorem viewInfo_Serialize_snd (c : Codec K A) (v : ViewInfo K A) (w : Writer) :
    (ViewInfo.Serialize c v w).2 =
      match c.WriteVarUint w (toUint64 (mapLen v.Peers)) with
      | .error err => .error ("serialize: wirte peers len faield, err: " ++ err)
      | .ok w => ViewInfo.serializeLoop c 0 v.peerInfoList w := by
  unfold ViewInfo.Serialize
  split <;> rfl

theorem userStakeInfo_Serialize_snd (c : Codec K A) (v : UserStakeInfo K) (w : Writer) :
    (UserStakeInfo.Serialize c v w).2 =
      match c.WriteVarUint w (toUint64 (mapLen v.Peers)) with
      | .error err => .error ("serialize: wirte peers len faield, err: " ++ err)
      | .ok w => UserStakeInfo.serializeLoop c 0 v.userPeerInfoList w := by
  unfold UserStakeInfo.Serialize
  split <;> rfl

theorem mapIndex_perm {V : Type} [DecidableEq K] {m1 m2 : List (K × V)} (hp : m1.Perm m2)
    (hnd : (m2.map Prod.fst).Nodup) (k : K) : mapIndex m1 k = mapIndex m2 k := by
  have hnd1 : (m1.map Prod.fst).Nodup := (List.Perm.nodup_iff (hp.map Prod.fst)).mpr hnd
  apply Option.ext
  intro x
  rw [Option.mem_def, Option.mem_def, mapIndex_eq_some_iff m1 hnd1,
    mapIndex_eq_some_iff m2 hnd, hp.mem_iff]

/-- C3. Determinism of collection encoding: if two association lists hold the
same entries in two different orders (they are permutations of each other) and
the peer-key strings of the entries are pairwise distinct, then
`ViewInfo.Serialize` returns the same result on both, on every sink, and so does
`UserStakeInfo.Serialize`: the bytes written do not depend on the order in which
the entries of the map are collected. -/
theorem Serialize_deterministic (c : Codec K A) (m1 m2 : List (K × PeerViewInfo A))
    (u1 u2 : List (K × UserPeerStakeInfo)) (w : Writer)
    (hm : m1.Perm m2) (hmd : (m1.map (fun e => e.2.PeerPubKey)).Nodup)
    (hu : u1.Perm u2) (hud : (u1.map (fun e => e.2.PeerPubKey)).Nodup) :
    (ViewInfo.Serialize c { Peers := some m1 } w).2 =
        (ViewInfo.Serialize c { Peers := some m2 } w).2 ∧
      (UserStakeInfo.Serialize c { Peers := some u1 } w).2 =
        (UserStakeInfo.Serialize c { Peers := some u2 } w).2 := by
  constructor
  · have hs : ViewInfo.peerInfoList { Peers := some m1 } =
        ViewInfo.peerInfoList { Peers := some m2 } := by
      unfold ViewInfo.peerInfoList
      refine sortSliceStable_eq_of_perm (fun a : PeerViewInfo A => a.PeerPubKey)
        (hm.map _) ?_
      simpa [mapRange, List.map_map, Function.comp_def] using hmd
    rw [viewInfo_Serialize_snd, viewInfo_Serialize_snd, hs]
    simp only [mapLen, hm.length_eq]
  · have hs : UserStakeInfo.userPeerInfoList { Peers := some u1 } =
        UserStakeInfo.userPeerInfoList { Peers := some u2 } := by
      unfold UserStakeInfo.userPeerInfoList
      refine sortSliceStable_eq_of_perm (fun a : UserPeerStakeInfo => a.PeerPubKey)
        (hu.map _) ?_
      simpa [mapRange, List.map_map, Function.comp_def] using hud
    rw [userStakeInfo_Serialize_snd, userStakeInfo_Serialize_snd, hs]
    simp only [mapLen, hu.length_eq]


/-- Witness of C3: the view with key strings "b", "a", "c" and the ledger with
"aa", "bb", each visited in two different orders. -/
theorem Serialize_deterministic_witness :
    [(([1] : Sample.PublicKey), Sample.peerNamed "b"), ([2], Sample.peerNamed "a"),
        ([3], Sample.peerNamed "c")].Perm
      [([2], Sample.peerNamed "a"), ([1], Sample.peerNamed "b"), ([3], Sample.peerNamed "c")] ∧
    [(Sample.keyAA, Sample.stakeAA), (Sample.keyBB, Sample.stakeBB)].Perm
      [(Sample.keyBB, Sample.stakeBB), (Sample.keyAA, Sample.stakeAA)] ∧
    (ViewInfo.Serialize Sample.codec Sample.viewBAC Writer.buffer).2 =
        (ViewInfo.Serialize Sample.codec
          { Peers := some [([2], Sample.peerNamed "a"), ([1], Sample.peerNamed "b"),
              ([3], Sample.peerNamed "c")] } Writer.buffer).2 ∧
      (UserStakeInfo.Serialize Sample.codec Sample.ledger Writer.buffer).2 =
        (UserStakeInfo.Serialize Sample.codec
          { Peers := some [(Sample.keyBB, Sample.stakeBB), (Sample.keyAA, Sample.stakeAA)] }
          Writer.buffer).2 :=
  ⟨List.Perm.swap _ _ _, List.Perm.swap _ _ _,
    Serialize_deterministic Sample.codec _ _ _ _ Writer.buffer (List.Perm.swap _ _ _)
      (by decide) (List.Perm.swap _ _ _) (by decide)⟩

/-- C1. EpochView round trip: if the primitive codecs round-trip and the mapping
`m` (its entries in any iteration order, fewer than `2^64` of them) satisfies the
key/string consistency invariant, then `ViewInfo.Serialize` into an empty buffer
succeeds and `ViewInfo.Deserialize` of the bytes written succeeds, consumes them
all and yields a mapping `m1` with exactly the entries of `m`: the two lists are
permutations of each other and every key looks up the same record in both. -/
theorem viewInfo_roundTrip [DecidableEq K] [Inhabited A] (c : Codec K A) (hc : c.RoundTrips)
    (m : List (K × PeerViewInfo A)) (hm : ViewInfo.Consistent c m) (hlen : m.length < 2 ^ 64)
    (this0 : ViewInfo K A) :
    ∃ w m1, (ViewInfo.Serialize c { Peers := some m } Writer.buffer).2 = .ok w ∧
      ViewInfo.Deserialize c this0 w.buf = .ok ({ Peers := some m1 }, []) ∧
      m1.Perm m ∧ ∀ k, mapIndex m1 k = mapIndex m k := by
  have hes : ViewInfo.peerInfoList { Peers := some m } =
      (sortSliceStable (fun x y : K × PeerViewInfo A =>
        strGt x.2.PeerPubKey y.2.PeerPubKey) m).map Prod.snd := by
    unfold ViewInfo.peerInfoList
    exact sortSliceStable_map Prod.snd (fun a b => strGt a.PeerPubKey b.PeerPubKey) m
  have hperm := sortSliceStable_perm
    (fun x y : K × PeerViewInfo A => strGt x.2.PeerPubKey y.2.PeerPubKey) m
  have hnd : ((sortSliceStable (fun x y : K × PeerViewInfo A =>
      strGt x.2.PeerPubKey y.2.PeerPubKey) m).map Prod.fst).Nodup :=
    (List.Perm.nodup_iff (hperm.map Prod.fst)).mpr hm.2
  refine ⟨_, _, viewInfo_Serialize_unbounded c _ Writer.buffer rfl, ?_, hperm,
    fun k => mapIndex_perm hperm hm.2 k⟩
  have h := viewInfo_Deserialize_layout c hc _ (by rw [hperm.length_eq]; exact hlen)
    (fun e he => hm.1 e (hperm.mem_iff.mp he)) this0 []
  rw [foldl_mapAssign_of_nodup _ _ (by simpa using hnd)] at h
  simpa [Writer.buffer, hes] using h

/-- Witness of C1: the view with the single record `peerKey = "aa"`,
`wholeFee = 100`, `feeBalance = 40`; decoding its encoding gives back exactly
this record under its key. -/
theorem viewInfo_roundTrip_witness :
    Sample.codec.RoundTrips ∧
    ViewInfo.Consistent Sample.codec [(Sample.keyAA, Sample.peerAA)] ∧
    (∃ w, (ViewInfo.Serialize Sample.codec Sample.viewAA Writer.buffer).2 = .ok w ∧
      ViewInfo.Deserialize Sample.codec { Peers := none } w.buf =
        .ok ({ Peers := some [(Sample.keyAA, Sample.peerAA)] }, [])) ∧
    ∃ w m1,
      (ViewInfo.Serialize Sample.codec { Peers := some [(Sample.keyAA, Sample.peerAA)] }
        Writer.buffer).2 = .ok w ∧
      ViewInfo.Deserialize Sample.codec { Peers := none } w.buf =
        .ok ({ Peers := some m1 }, []) ∧
      m1.Perm [(Sample.keyAA, Sample.peerAA)] ∧
      ∀ k, mapIndex m1 k = mapIndex [(Sample.keyAA, Sample.peerAA)] k :=
  have hcons : ViewInfo.Consistent Sample.codec [(Sample.keyAA, Sample.peerAA)] :=
    ⟨fun e he => by
      rw [List.mem_singleton] at he
      subst he
      exact ⟨[170], rfl, rfl⟩, by decide⟩
  ⟨Sample.codec_roundTrips, hcons, ⟨_, rfl, rfl⟩,
    viewInfo_roundTrip Sample.codec Sample.codec_roundTrips _ hcons (by decide)
      { Peers := none }⟩

/-- C2. UserLedger round trip: if the primitive codecs round-trip and the mapping
`m` (its entries in any iteration order, fewer than `2^64` of them) satisfies the
key/string consistency invariant, then `UserStakeInfo.Serialize` into an empty
buffer succeeds and `UserStakeInfo.Deserialize` of the bytes written succeeds,
consumes them all and yields a mapping `m1` with exactly the entries of `m`, each
record with its three fields: the two lists are permutations of each other and
every key looks up the same record in both. -/
theorem userStakeInfo_roundTrip [DecidableEq K] (c : Codec K A) (hc : c.RoundTrips)
    (m : List (K × UserPeerStakeInfo)) (hm : UserStakeInfo.Consistent c m)
    (hlen : m.length < 2 ^ 64) (this0 : UserStakeInfo K) :
    ∃ w m1, (UserStakeInfo.Serialize c { Peers := some m } Writer.buffer).2 = .ok w ∧
      UserStakeInfo.Deserialize c this0 w.buf = .ok ({ Peers := some m1 }, []) ∧
      m1.Perm m ∧ ∀ k, mapIndex m1 k = mapIndex m k := by
  have hes : UserStakeInfo.userPeerInfoList { Peers := some m } =
      (sortSliceStable (fun x y : K × UserPeerStakeInfo =>
        strGt x.2.PeerPubKey y.2.PeerPubKey) m).map Prod.snd := by
    unfold UserStakeInfo.userPeerInfoList
    exact sortSliceStable_map Prod.snd (fun a b => strGt a.PeerPubKey b.PeerPubKey) m
  have hperm := sortSliceStable_perm
    (fun x y : K × UserPeerStakeInfo => strGt x.2.PeerPubKey y.2.PeerPubKey) m
  have hnd : ((sortSliceStable (fun x y : K × UserPeerStakeInfo =>
      strGt x.2.PeerPubKey y.2.PeerPubKey) m).map Prod.fst).Nodup :=
    (List.Perm.nodup_iff (hperm.map Prod.fst)).mpr hm.2
  refine ⟨_, _, userStakeInfo_Serialize_unbounded c _ Writer.buffer rfl, ?_, hperm,
    fun k => mapIndex_perm hperm hm.2 k⟩
  have h := userStakeInfo_Deserialize_layout c hc _ (by rw [hperm.length_eq]; exact hlen)
    (fun e he => hm.1 e (hperm.mem_iff.mp he)) this0 []
  rw [foldl_mapAssign_of_nodup _ _ (by simpa using hnd)] at h
  simpa [Writer.buffer, hes] using h

/-- Witness of C2: the ledger with the stakes "aa" (5, 2) and "bb" (9, 0);
decoding its encoding gives back both records, "bb" first. -/
theorem userStakeInfo_roundTrip_witness :
    Sample.codec.RoundTrips ∧
    UserStakeInfo.Consistent Sample.codec
      [(Sample.keyAA, Sample.stakeAA), (Sample.keyBB, Sample.stakeBB)] ∧
    (∃ w, (UserStakeInfo.Serialize Sample.codec Sample.ledger Writer.buffer).2 = .ok w ∧
      UserStakeInfo.Deserialize Sample.codec { Peers := none } w.buf =
        .ok ({ Peers := some [(Sample.keyBB, Sample.stakeBB),
          (Sample.keyAA, Sample.stakeAA)] }, [])) ∧
    ∃ w m1,
      (UserStakeInfo.Serialize Sample.codec
        { Peers := some [(Sample.keyAA, Sample.stakeAA), (Sample.keyBB, Sample.stakeBB)] }
        Writer.buffer).2 = .ok w ∧
      UserStakeInfo.Deserialize Sample.codec { Peers := none } w.buf =
        .ok ({ Peers := some m1 }, []) ∧
      m1.Perm [(Sample.keyAA, Sample.stakeAA), (Sample.keyBB, Sample.stakeBB)] ∧
      ∀ k, mapIndex m1 k =
        mapIndex [(Sample.keyAA, Sample.stakeAA), (Sample.keyBB, Sample.stakeBB)] k :=
  have hcons : UserStakeInfo.Consistent Sample.codec
      [(Sample.keyAA, Sample.stakeAA), (Sample.keyBB, Sample.stakeBB)] :=
    ⟨fun e he => by
      simp only [List.mem_cons, List.mem_singleton, List.not_mem_nil, or_false] at he
      rcases he with rfl | rfl
      · exact ⟨[170], rfl, rfl⟩
      · exact ⟨[187], rfl, rfl⟩, by decide⟩
  ⟨Sample.codec_roundTrips, hcons, ⟨_, rfl, rfl⟩,
    userStakeInfo_roundTrip Sample.codec Sample.codec_roundTrips _ hcons (by decide)
      { Peers := none }⟩


theorem strict_append_cases {α : Type} {p a b : List α} (hp : p <+: a ++ b)
    (hne : p ≠ a ++ b) : (p <+: a ∧ p ≠ a) ∨ ∃ q, p = a ++ q ∧ q <+: b ∧ q ≠ b := by
  rcases List.prefix_or_prefix_of_prefix hp (List.prefix_append a b) with h | h
  · by_cases hpa : p = a
    · right
      refine ⟨[], by simp [hpa], List.nil_prefix, ?_⟩
      intro hb
      apply hne
      rw [hpa, ← hb]
      simp
    · left
      exact ⟨h, hpa⟩
  · obtain ⟨q, rfl⟩ := h
    right
    refine ⟨q, rfl, (List.prefix_append_right_inj a).mp hp, ?_⟩
    intro hq
    exact hne (by rw [hq])

theorem peerViewInfo_Deserialize_truncated (c : Codec K A) (hc : c.RoundTrips)
    (ht : c.RejectsTruncated) (x this0 : PeerViewInfo A) (p : List Byte)
    (hp : p <+: x.layout c) (hne : p ≠ x.layout c) :
    ∃ err, PeerViewInfo.Deserialize c this0 p = .error err := by
  unfold PeerViewInfo.layout at hp hne
  simp only [List.append_assoc] at hp hne
  rcases strict_append_cases hp hne with h | ⟨q, rfl, hp, hne⟩
  · obtain ⟨e, he⟩ := ht.string _ _ h.1 h.2
    exact ⟨_, by simp only [PeerViewInfo.Deserialize, he]; rfl⟩
  rcases strict_append_cases hp hne with h | ⟨q, rfl, hp, hne⟩
  · obtain ⟨e, he⟩ := ht.address _ _ h.1 h.2
    exact ⟨_, by simp only [PeerViewInfo.Deserialize, hc.string, he]; rfl⟩
  rcases strict_append_cases hp hne with h | ⟨q, rfl, hp, hne⟩
  · obtain ⟨e, he⟩ := ht.varUint _ _ h.1 h.2
    exact ⟨_, by simp only [PeerViewInfo.Deserialize, hc.string, hc.address, he]; rfl⟩
  rcases strict_append_cases hp hne with h | ⟨q, rfl, hp, hne⟩
  · obtain ⟨e, he⟩ := ht.varUint _ _ h.1 h.2
    exact ⟨_, by simp only [PeerViewInfo.Deserialize, hc.string, hc.address, hc.varUint, he]; rfl⟩
  rcases strict_append_cases hp hne with h | ⟨q, rfl, hp, hne⟩
  · obtain ⟨e, he⟩ := ht.varUint _ _ h.1 h.2
    exact ⟨_, by simp only [PeerViewInfo.Deserialize, hc.string, hc.address, hc.varUint, he]; rfl⟩
  rcases strict_append_cases hp hne with h | ⟨q, rfl, hp, hne⟩
  · obtain ⟨e, he⟩ := ht.varUint _ _ h.1 h.2
    exact ⟨_, by simp only [PeerViewInfo.Deserialize, hc.string, hc.address, hc.varUint, he]; rfl⟩
  rcases strict_append_cases hp hne with h | ⟨q, rfl, hp, hne⟩
  · obtain ⟨e, he⟩ := ht.varUint _ _ h.1 h.2
    exact ⟨_, by simp only [PeerViewInfo.Deserialize, hc.string, hc.address, hc.varUint, he]; rfl⟩
  rcases strict_append_cases hp hne with h | ⟨q, rfl, hp, hne⟩
  · obtain ⟨e, he⟩ := ht.varUint _ _ h.1 h.2
    exact ⟨_, by simp only [PeerViewInfo.Deserialize, hc.string, hc.address, hc.varUint, he]; rfl⟩
  obtain ⟨e, he⟩ := ht.varUint _ _ hp hne
  exact ⟨_, by simp only [PeerViewInfo.Deserialize, hc.string, hc.address, hc.varUint, he]; rfl⟩

theorem viewInfo_deserializeLoop_truncated [DecidableEq K] [Inhabited A] (c : Codec K A)
    (hc : c.RoundTrips) (ht : c.RejectsTruncated) (es : List (K × PeerViewInfo A)) :
    ∀ (i : Nat) (peers : List (K × PeerViewInfo A)) (p : List Byte),
      (∀ e ∈ es, c.Derives e.2.PeerPubKey e.1) →
      p <+: (es.map (fun e => e.2.layout c)).flatten →
      p ≠ (es.map (fun e => e.2.layout c)).flatten →
      ∃ err, ViewInfo.deserializeLoop c es.length i peers p = .error err := by
  induction es with
  | nil =>
    intro i peers p _ hp hne
    simp only [List.map_nil, List.flatten_nil, List.prefix_nil] at hp hne
    exact absurd hp hne
  | cons e es ih =>
    intro i peers p hall hp hne
    simp only [List.map_cons, List.flatten_cons] at hp hne
    rcases strict_append_cases hp hne with h | ⟨q, rfl, hp, hne⟩
    · obtain ⟨err, herr⟩ := peerViewInfo_Deserialize_truncated c hc ht e.2
        PeerViewInfo.zero p h.1 h.2
      exact ⟨_, by simp only [List.length_cons, ViewInfo.deserializeLoop, herr]; rfl⟩
    · obtain ⟨data, hd, hk⟩ := hall e (List.mem_cons_self _ _)
      obtain ⟨err, herr⟩ := ih (i + 1) (mapAssign peers e.1 e.2) q
        (fun e1 he1 => hall e1 (List.mem_cons_of_mem _ he1)) hp hne
      exact ⟨err, by
        simp only [List.length_cons, ViewInfo.deserializeLoop,
          peerViewInfo_Deserialize_layout c hc, hd, hk, herr]⟩

theorem viewInfo_Deserialize_truncated [DecidableEq K] [Inhabited A] (c : Codec K A)
    (hc : c.RoundTrips) (ht : c.RejectsTruncated) (es : List (K × PeerViewInfo A))
    (hlen : es.length < 2 ^ 64) (hall : ∀ e ∈ es, c.Derives e.2.PeerPubKey e.1)
    (this0 : ViewInfo K A) (p : List Byte)
    (hp : p <+: ViewInfo.layout c (es.map Prod.snd))
    (hne : p ≠ ViewInfo.layout c (es.map Prod.snd)) :
    ∃ err, ViewInfo.Deserialize c this0 p = .error err := by
  have hfun : (PeerViewInfo.layout c ∘ Prod.snd) =
      (fun e : K × PeerViewInfo A => e.2.layout c) := rfl
  simp only [ViewInfo.layout, List.length_map, List.map_map, hfun] at hp hne
  rcases strict_append_cases hp hne with h | ⟨q, rfl, hp, hne⟩
  · obtain ⟨err, herr⟩ := ht.varUint _ _ h.1 h.2
    exact ⟨_, by simp only [ViewInfo.Deserialize, herr]; rfl⟩
  · obtain ⟨err, herr⟩ := viewInfo_deserializeLoop_truncated c hc ht es 0 [] q hall hp hne
    exact ⟨err, by
      simp only [ViewInfo.Deserialize, hc.varUint, toUint64_val _ hlen, mapRange, herr]⟩

theorem userStakeInfo_deserializeLoop_truncated [DecidableEq K] (c : Codec K A)
    (hc : c.RoundTrips) (ht : c.RejectsTruncated) (es : List (K × UserPeerStakeInfo)) :
    ∀ (i : Nat) (peers : List (K × UserPeerStakeInfo)) (p : List Byte),
      (∀ e ∈ es, c.Derives e.2.PeerPubKey e.1) →
      p <+: (es.map (fun e => e.2.layout c)).flatten →
      p ≠ (es.map (fun e => e.2.layout c)).flatten →
      ∃ err, UserStakeInfo.deserializeLoop c es.length i peers p = .error err := by
  induction es with
  | nil =>
    intro i peers p _ hp hne
    simp only [List.map_nil, List.flatten_nil, List.prefix_nil] at hp hne
    exact absurd hp hne
  | cons e es ih =>
    intro i peers p hall hp hne
    obtain ⟨data, hd, hk⟩ := hall e (List.mem_cons_self _ _)
    simp only [List.map_cons, List.flatten_cons] at hp hne
    rw [UserPeerStakeInfo.layout] at hp hne
    simp only [List.append_assoc] at hp hne
    rcases strict_append_cases hp hne with h | ⟨q, rfl, hp, hne⟩
    · obtain ⟨err, herr⟩ := ht.string _ _ h.1 h.2
      exact ⟨_, by simp only [List.length_cons, UserStakeInfo.deserializeLoop, herr]; rfl⟩
    rcases strict_append_cases hp hne with h | ⟨q, rfl, hp, hne⟩
    · obtain ⟨err, herr⟩ := ht.varUint _ _ h.1 h.2
      exact ⟨_, by
        simp only [List.length_cons, UserStakeInfo.deserializeLoop, hc.string, hd, hk, herr]
        rfl⟩
    rcases strict_append_cases hp hne with h | ⟨q, rfl, hp, hne⟩
    · obtain ⟨err, herr⟩ := ht.varUint _ _ h.1 h.2
      exact ⟨_, by
        simp only [List.length_cons, UserStakeInfo.deserializeLoop, hc.string, hc.varUint, hd,
          hk, herr]
        rfl⟩
    · obtain ⟨err, herr⟩ := ih (i + 1) (mapAssign peers e.1 e.2) q
        (fun e1 he1 => hall e1 (List.mem_cons_of_mem _ he1)) hp hne
      exact ⟨err, by
        simp only [List.length_cons, UserStakeInfo.deserializeLoop, hc.string, hc.varUint, hd,
          hk]
        exact herr⟩

theorem userStakeInfo_Deserialize_truncated [DecidableEq K] (c : Codec K A)
    (hc : c.RoundTrips) (ht : c.RejectsTruncated) (es : List (K × UserPeerStakeInfo))
    (hlen : es.length < 2 ^ 64) (hall : ∀ e ∈ es, c.Derives e.2.PeerPubKey e.1)
    (this0 : UserStakeInfo K) (p : List Byte)
    (hp : p <+: UserStakeInfo.layout c (es.map Prod.snd))
    (hne : p ≠ UserStakeInfo.layout c (es.map Prod.snd)) :
    ∃ err, UserStakeInfo.Deserialize c this0 p = .error err := by
  have hfun : (UserPeerStakeInfo.layout c ∘ Prod.snd) =
      (fun e : K × UserPeerStakeInfo => e.2.layout c) := rfl
  simp only [UserStakeInfo.layout, List.length_map, List.map_map, hfun] at hp hne
  rcases strict_append_cases hp hne with h | ⟨q, rfl, hp, hne⟩
  · obtain ⟨err, herr⟩ := ht.varUint _ _ h.1 h.2
    exact ⟨_, by simp only [UserStakeInfo.Deserialize, herr]; rfl⟩
  · obtain ⟨err, herr⟩ := userStakeInfo_deserializeLoop_truncated c hc ht es 0 [] q hall hp hne
    exact ⟨err, by
      simp only [UserStakeInfo.Deserialize, hc.varUint, toUint64_val _ hlen, mapRange, herr]⟩


/-- C9. Truncation is rejected: if the primitive codecs round-trip and each
primitive reader fails on a strict initial segment of a primitive encoding, then
for every record `x`, every consistent `ViewInfo` mapping `m` and every
consistent `UserStakeInfo` mapping `u` (each of fewer than `2^64` entries),
`Serialize` into an empty buffer succeeds and, for every strict initial segment
`p` of the bytes written (the empty one included), the corresponding
`Deserialize` applied to `p` returns an error; it never reports success on a
stream that was cut short. -/
theorem Deserialize_rejects_truncated [DecidableEq K] [Inhabited A] (c : Codec K A)
    (hc : c.RoundTrips) (ht : c.RejectsTruncated) (x x0 : PeerViewInfo A)
    (m : List (K × PeerViewInfo A)) (hm : ViewInfo.Consistent c m) (hml : m.length < 2 ^ 64)
    (v0 : ViewInfo K A) (u : List (K × UserPeerStakeInfo))
    (hu : UserStakeInfo.Consistent c u) (hul : u.length < 2 ^ 64) (u0 : UserStakeInfo K) :
    (∃ w, x.Serialize c Writer.buffer = .ok w ∧
      ∀ p, p <+: w.buf → p ≠ w.buf → ∃ err, PeerViewInfo.Deserialize c x0 p = .error err) ∧
    (∃ w, (ViewInfo.Serialize c { Peers := some m } Writer.buffer).2 = .ok w ∧
      ∀ p, p <+: w.buf → p ≠ w.buf → ∃ err, ViewInfo.Deserialize c v0 p = .error err) ∧
    (∃ w, (UserStakeInfo.Serialize c { Peers := some u } Writer.buffer).2 = .ok w ∧
      ∀ p, p <+: w.buf → p ≠ w.buf →
        ∃ err, UserStakeInfo.Deserialize c u0 p = .error err) := by
  refine ⟨⟨_, peerViewInfo_Serialize_unbounded c x Writer.buffer rfl, ?_⟩,
    ⟨_, viewInfo_Serialize_unbounded c _ Writer.buffer rfl, ?_⟩,
    ⟨_, userStakeInfo_Serialize_unbounded c _ Writer.buffer rfl, ?_⟩⟩
  · intro p hp hne
    simp only [Writer.buffer, List.nil_append] at hp hne
    exact peerViewInfo_Deserialize_truncated c hc ht x x0 p hp hne
  · intro p hp hne
    have hes : ViewInfo.peerInfoList { Peers := some m } =
        (sortSliceStable (fun a b : K × PeerViewInfo A =>
          strGt a.2.PeerPubKey b.2.PeerPubKey) m).map Prod.snd := by
      unfold ViewInfo.peerInfoList
      exact sortSliceStable_map Prod.snd (fun a b => strGt a.PeerPubKey b.PeerPubKey) m
    have hperm := sortSliceStable_perm
      (fun a b : K × PeerViewInfo A => strGt a.2.PeerPubKey b.2.PeerPubKey) m
    simp only [Writer.buffer, List.nil_append, hes] at hp hne
    exact viewInfo_Deserialize_truncated c hc ht _ (by rw [hperm.length_eq]; exact hml)
      (fun e he => hm.1 e (hperm.mem_iff.mp he)) v0 p hp hne
  · intro p hp hne
    have hes : UserStakeInfo.userPeerInfoList { Peers := some u } =
        (sortSliceStable (fun a b : K × UserPeerStakeInfo =>
          strGt a.2.PeerPubKey b.2.PeerPubKey) u).map Prod.snd := by
      unfold UserStakeInfo.userPeerInfoList
      exact sortSliceStable_map Prod.snd (fun a b => strGt a.PeerPubKey b.PeerPubKey) u
    have hperm := sortSliceStable_perm
      (fun a b : K × UserPeerStakeInfo => strGt a.2.PeerPubKey b.2.PeerPubKey) u
    simp only [Writer.buffer, List.nil_append, hes] at hp hne
    exact userStakeInfo_Deserialize_truncated c hc ht _ (by rw [hperm.length_eq]; exact hul)
      (fun e he => hu.1 e (hperm.mem_iff.mp he)) u0 p hp hne

/-- Witness of C9 on the record and the view of the end-to-end example and on the
sample ledger. -/
theorem Deserialize_rejects_truncated_witness :
    Sample.codec.RoundTrips ∧ Sample.codec.RejectsTruncated ∧
    ViewInfo.Consistent Sample.codec [(Sample.keyAA, Sample.peerAA)] ∧
    UserStakeInfo.Consistent Sample.codec
      [(Sample.keyAA, Sample.stakeAA), (Sample.keyBB, Sample.stakeBB)] ∧
    (∃ w, Sample.peerAA.Serialize Sample.codec Writer.buffer = .ok w ∧
      ∀ p, p <+: w.buf → p ≠ w.buf →
        ∃ err, PeerViewInfo.Deserialize Sample.codec PeerViewInfo.zero p = .error err) ∧
    (∃ w, (ViewInfo.Serialize Sample.codec { Peers := some [(Sample.keyAA, Sample.peerAA)] }
        Writer.buffer).2 = .ok w ∧
      ∀ p, p <+: w.buf → p ≠ w.buf →
        ∃ err, ViewInfo.Deserialize Sample.codec { Peers := none } p = .error err) ∧
    (∃ w, (UserStakeInfo.Serialize Sample.codec
        { Peers := some [(Sample.keyAA, Sample.stakeAA), (Sample.keyBB, Sample.stakeBB)] }
        Writer.buffer).2 = .ok w ∧
      ∀ p, p <+: w.buf → p ≠ w.buf →
        ∃ err, UserStakeInfo.Deserialize Sample.codec { Peers := none } p = .error err) :=
  have h1 : ViewInfo.Consistent Sample.codec [(Sample.keyAA, Sample.peerAA)] :=
    ⟨fun e he => by
      rw [List.mem_singleton] at he
      subst he
      exact ⟨[170], rfl, rfl⟩, by decide⟩
  have h2 : UserStakeInfo.Consistent Sample.codec
      [(Sample.keyAA, Sample.stakeAA), (Sample.keyBB, Sample.stakeBB)] :=
    ⟨fun e he => by
      simp only [List.mem_cons, List.mem_singleton, List.not_mem_nil, or_false] at he
      rcases he with rfl | rfl
      · exact ⟨[170], rfl, rfl⟩
      · exact ⟨[187], rfl, rfl⟩, by decide⟩
  ⟨Sample.codec_roundTrips, Sample.codec_rejectsTruncated, h1, h2,
    Deserialize_rejects_truncated Sample.codec Sample.codec_roundTrips
      Sample.codec_rejectsTruncated Sample.peerAA PeerViewInfo.zero _ h1 (by decide)
      { Peers := none } _ h2 (by decide) { Peers := none }⟩

/-- C10. Lookup by hex identifier: when the mapping is initialized (`m`, keys
unique) and the string `h` derives the key `k`, `GetPeer(h)` returns the record
stored under `k` together with `k` if there is one, and fails with the error
"GetPeer: peer h not exist" if there is none, in particular on the empty
mapping; on the nil mapping `GetPeer` fails with "GetPeer: peers is nil"; and
`GetPeer` leaves its receiver as it was. -/
theorem viewInfo_GetPeer_lookup [DecidableEq K] (c : Codec K A)
    (m : List (K × PeerViewInfo A)) (h : String) (k : K)
    (hnd : (m.map Prod.fst).Nodup) (hk : c.Derives h k) :
    (∀ x, (k, x) ∈ m → (ViewInfo.GetPeer c { Peers := some m } h).2 = .ok (x, k)) ∧
    (k ∉ m.map Prod.fst →
      (ViewInfo.GetPeer c { Peers := some m } h).2 =
        .error ("GetPeer: peer " ++ h ++ " not exist")) ∧
    (ViewInfo.GetPeer c { Peers := some [] } h).2 =
      .error ("GetPeer: peer " ++ h ++ " not exist") ∧
    (∀ s, (ViewInfo.GetPeer c { Peers := none } s).2 = .error "GetPeer: peers is nil") ∧
    (∀ (v : ViewInfo K A) (s : String), (ViewInfo.GetPeer c v s).1 = v) := by
  obtain ⟨data, hd, hp⟩ := hk
  refine ⟨?_, ?_, ?_, ?_, ?_⟩
  · intro x hx
    have hi := (mapIndex_eq_some_iff m hnd k x).mpr hx
    simp only [ViewInfo.GetPeer, hd, hp, hi]
  · intro hx
    have hi := (mapIndex_eq_none_iff m k).mpr hx
    simp only [ViewInfo.GetPeer, hd, hp, hi]
  · simp only [ViewInfo.GetPeer, hd, hp, mapIndex]
  · intro s
    rfl
  · intro v s
    unfold ViewInfo.GetPeer
    repeat' split
    all_goals rfl

/-- Witness of C10: in the view of the end-to-end example "aa" finds the record,
"bb" finds none. -/
theorem viewInfo_GetPeer_lookup_witness :
    ([(Sample.keyAA, Sample.peerAA)].map Prod.fst).Nodup ∧
    Sample.codec.Derives "aa" Sample.keyAA ∧
    (ViewInfo.GetPeer Sample.codec Sample.viewAA "aa").2 = .ok (Sample.peerAA, Sample.keyAA) ∧
    (ViewInfo.GetPeer Sample.codec Sample.viewAA "bb").2 =
      .error "GetPeer: peer bb not exist" ∧
    ((∀ x, (Sample.keyAA, x) ∈ [(Sample.keyAA, Sample.peerAA)] →
        (ViewInfo.GetPeer Sample.codec { Peers := some [(Sample.keyAA, Sample.peerAA)] }
          "aa").2 = .ok (x, Sample.keyAA)) ∧
      (Sample.keyAA ∉ [(Sample.keyAA, Sample.peerAA)].map Prod.fst →
        (ViewInfo.GetPeer Sample.codec { Peers := some [(Sample.keyAA, Sample.peerAA)] }
          "aa").2 = .error ("GetPeer: peer " ++ "aa" ++ " not exist")) ∧
      (ViewInfo.GetPeer Sample.codec { Peers := some [] } "aa").2 =
        .error ("GetPeer: peer " ++ "aa" ++ " not exist") ∧
      (∀ s, (ViewInfo.GetPeer Sample.codec { Peers := none } s).2 =
        .error "GetPeer: peers is nil") ∧
      (∀ (v : ViewInfo Sample.PublicKey Sample.Address) (s : String),
        (ViewInfo.GetPeer Sample.codec v s).1 = v)) :=
  ⟨by decide, ⟨[170], rfl, rfl⟩, rfl, rfl,
    viewInfo_GetPeer_lookup Sample.codec [(Sample.keyAA, Sample.peerAA)] "aa" Sample.keyAA
      (by decide) ⟨[170], rfl, rfl⟩⟩



/-! ## Lookup with an identifier that derives no key -/

/-- Counterexample to C11: the string "zz" is not well-formed hex, yet on the nil
mapping `GetPeer("zz")` fails with "GetPeer: peers is nil", which is not the
error that reports the hex decoding failure: the nil check comes first. -/
theorem GetPeer_nil_check_comes_first :
    Sample.codec.DecodeString "zz" = .error "encoding/hex: invalid byte" ∧
    (ViewInfo.GetPeer Sample.codec { Peers := none } "zz").2 =
      .error "GetPeer: peers is nil" ∧
    (ViewInfo.GetPeer Sample.codec { Peers := some [] } "zz").2 =
      .error "GetPeer: decode param pub key failed, err: encoding/hex: invalid byte" ∧
    "GetPeer: peers is nil" ≠
      "GetPeer: decode param pub key failed, err: encoding/hex: invalid byte" :=
  ⟨rfl, rfl, rfl, by decide⟩

/-- C11, amended. Lookup rejects bad identifiers before any lookup, on an
initialized mapping: for every initialized mapping `m`, whatever its entries, if
`hex.DecodeString` fails on `h` then `GetPeer(h)` fails with
"GetPeer: decode param pub key failed, err: ..." and if the decoded bytes are
not a public key it fails with "GetPeer: deserialize param pub key failed,
err: ..."; neither result mentions `m`. On the nil mapping `GetPeer` fails with
"GetPeer: peers is nil" whatever `h` is. -/
theorem viewInfo_GetPeer_rejects_bad_key [DecidableEq K] (c : Codec K A)
    (m : List (K × PeerViewInfo A)) (h : String) :
    (∀ e, c.DecodeString h = .error e →
      (ViewInfo.GetPeer c { Peers := some m } h).2 =
        .error ("GetPeer: decode param pub key failed, err: " ++ e)) ∧
    (∀ data e, c.DecodeString h = .ok data → c.DeserializePublicKey data = .error e →
      (ViewInfo.GetPeer c { Peers := some m } h).2 =
        .error ("GetPeer: deserialize param pub key failed, err: " ++ e)) ∧
    (ViewInfo.GetPeer c { Peers := none } h).2 = .error "GetPeer: peers is nil" := by
  refine ⟨?_, ?_, rfl⟩
  · intro e he
    simp only [ViewInfo.GetPeer, he]
  · intro data e hd he
    simp only [ViewInfo.GetPeer, hd, he]

/-- Witness of the amended C11: in the view of the end-to-end example "zz" is
rejected as malformed hex and the empty string as an invalid public key. -/
theorem viewInfo_GetPeer_rejects_bad_key_witness :
    Sample.codec.DecodeString "zz" = .error "encoding/hex: invalid byte" ∧
    Sample.codec.DecodeString "" = .ok [] ∧
    Sample.codec.DeserializePublicKey [] = .error "invalid public key" ∧
    (ViewInfo.GetPeer Sample.codec Sample.viewAA "zz").2 =
      .error "GetPeer: decode param pub key failed, err: encoding/hex: invalid byte" ∧
    (ViewInfo.GetPeer Sample.codec Sample.viewAA "").2 =
      .error "GetPeer: deserialize param pub key failed, err: invalid public key" ∧
    (∀ e, Sample.codec.DecodeString "zz" = .error e →
      (ViewInfo.GetPeer Sample.codec { Peers := some [(Sample.keyAA, Sample.peerAA)] }
        "zz").2 = .error ("GetPeer: decode param pub key failed, err: " ++ e)) :=
  ⟨rfl, rfl, rfl, rfl, rfl,
    (viewInfo_GetPeer_rejects_bad_key Sample.codec [(Sample.keyAA, Sample.peerAA)] "zz").1⟩

/-! ## The invariant established by decoding -/

theorem mem_mapAssign {V : Type} [DecidableEq K] (m : List (K × V)) (k : K) (v : V)
    (e : K × V) (he : e ∈ mapAssign m k v) : e = (k, v) ∨ e ∈ m := by
  induction m with
  | nil =>
    simp only [mapAssign, List.mem_singleton] at he
    exact Or.inl he
  | cons e0 m ih =>
    obtain ⟨k0, v0⟩ := e0
    simp only [mapAssign] at he
    split at he
    · rcases List.mem_cons.mp he with h | h
      · exact Or.inl h
      · exact Or.inr (List.mem_cons_of_mem _ h)
    · rcases List.mem_cons.mp he with h | h
      · exact Or.inr (by rw [h]; exact List.mem_cons_self _ _)
      · rcases ih h with h1 | h1
        · exact Or.inl h1
        · exact Or.inr (List.mem_cons_of_mem _ h1)

theorem viewInfo_deserializeLoop_derives [DecidableEq K] [Inhabited A] (c : Codec K A) :
    ∀ (n i : Nat) (peers peers1 : List (K × PeerViewInfo A)) (r r1 : Reader),
      (∀ e ∈ peers, c.Derives e.2.PeerPubKey e.1) →
      ViewInfo.deserializeLoop c n i peers r = .ok (peers1, r1) →
      ∀ e ∈ peers1, c.Derives e.2.PeerPubKey e.1 := by
  intro n
  induction n with
  | zero =>
    intro i peers peers1 r r1 hp h
    simp only [ViewInfo.deserializeLoop, Except.ok.injEq, Prod.mk.injEq] at h
    rw [← h.1]
    exact hp
  | succ n ih =>
    intro i peers peers1 r r1 hp h
    simp only [ViewInfo.deserializeLoop] at h
    split at h
    · simp at h
    · rename_i _ info r2 _
      split at h
      · simp at h
      · rename_i _ data hd
        split at h
        · simp at h
        · rename_i _ pubKey hk
          refine ih _ _ _ _ _ ?_ h
          intro e he
          rcases mem_mapAssign _ _ _ _ he with h1 | h1
          · rw [h1]
            exact ⟨data, hd, hk⟩
          · exact hp e h1

theorem userStakeInfo_deserializeLoop_derives [DecidableEq K] (c : Codec K A) :
    ∀ (n i : Nat) (peers peers1 : List (K × UserPeerStakeInfo)) (r r1 : Reader),
      (∀ e ∈ peers, c.Derives e.2.PeerPubKey e.1) →
      UserStakeInfo.deserializeLoop c n i peers r = .ok (peers1, r1) →
      ∀ e ∈ peers1, c.Derives e.2.PeerPubKey e.1 := by
  intro n
  induction n with
  | zero =>
    intro i peers peers1 r r1 hp h
    simp only [UserStakeInfo.deserializeLoop, Except.ok.injEq, Prod.mk.injEq] at h
    rw [← h.1]
    exact hp
  | succ n ih =>
    intro i peers peers1 r r1 hp h
    simp only [UserStakeInfo.deserializeLoop] at h
    split at h
    · simp at h
    · rename_i _ peerPubKey r2 _
      split at h
      · simp at h
      · rename_i _ data hd
        split at h
        · simp at h
        · rename_i _ pubKey hk
          split at h
          · simp at h
          · split at h
            · simp at h
            · refine ih _ _ _ _ _ ?_ h
              intro e he
              rcases mem_mapAssign _ _ _ _ he with h1 | h1
              · rw [h1]
                exact ⟨data, hd, hk⟩
              · exact hp e h1


theorem viewInfo_deserializeLoop_nodup [DecidableEq K] [Inhabited A] (c : Codec K A) :
    ∀ (n i : Nat) (peers peers1 : List (K × PeerViewInfo A)) (r r1 : Reader),
      (peers.map Prod.fst).Nodup →
      ViewInfo.deserializeLoop c n i peers r = .ok (peers1, r1) →
      (peers1.map Prod.fst).Nodup := by
  intro n
  induction n with
  | zero =>
    intro i peers peers1 r r1 hp h
    simp only [ViewInfo.deserializeLoop, Except.ok.injEq, Prod.mk.injEq] at h
    rw [← h.1]
    exact hp
  | succ n ih =>
    intro i peers peers1 r r1 hp h
    simp only [ViewInfo.deserializeLoop] at h
    split at h
    · simp at h
    · split at h
      · simp at h
      · split at h
        · simp at h
        · exact ih _ _ _ _ _ (mapAssign_nodup _ _ _ hp) h

theorem userStakeInfo_deserializeLoop_nodup [DecidableEq K] (c : Codec K A) :
    ∀ (n i : Nat) (peers peers1 : List (K × UserPeerStakeInfo)) (r r1 : Reader),
      (peers.map Prod.fst).Nodup →
      UserStakeInfo.deserializeLoop c n i peers r = .ok (peers1, r1) →
      (peers1.map Prod.fst).Nodup := by
  intro n
  induction n with
  | zero =>
    intro i peers peers1 r r1 hp h
    simp only [UserStakeInfo.deserializeLoop, Except.ok.injEq, Prod.mk.injEq] at h
    rw [← h.1]
    exact hp
  | succ n ih =>
    intro i peers peers1 r r1 hp h
    simp only [UserStakeInfo.deserializeLoop] at h
    split at h
    · simp at h
    · split at h
      · simp at h
      · split at h
        · simp at h
        · split at h
          · simp at h
          · split at h
            · simp at h
            · exact ih _ _ _ _ _ (mapAssign_nodup _ _ _ hp) h

theorem viewInfo_Deserialize_ok [DecidableEq K] [Inhabited A] (c : Codec K A)
    (v0 v : ViewInfo K A) (r r1 : Reader) (h : ViewInfo.Deserialize c v0 r = .ok (v, r1)) :
    ∃ num r0 m, c.ReadVarUint r = .ok (num, r0) ∧
      ViewInfo.deserializeLoop c num.val 0 [] r0 = .ok (m, r1) ∧ v = { Peers := some m } := by
  unfold ViewInfo.Deserialize at h
  split at h
  · simp at h
  · rename_i _ num r0 hn
    simp only [mapRange] at h
    split at h
    · simp at h
    · rename_i _ m r2 hl
      simp only [Except.ok.injEq, Prod.mk.injEq] at h
      exact ⟨num, r0, m, hn, by rw [hl, h.2], h.1.symm⟩

theorem userStakeInfo_Deserialize_ok [DecidableEq K] (c : Codec K A)
    (u0 u : UserStakeInfo K) (r r1 : Reader)
    (h : UserStakeInfo.Deserialize c u0 r = .ok (u, r1)) :
    ∃ num r0 m, c.ReadVarUint r = .ok (num, r0) ∧
      UserStakeInfo.deserializeLoop c num.val 0 [] r0 = .ok (m, r1) ∧
      u = { Peers := some m } := by
  unfold UserStakeInfo.Deserialize at h
  split at h
  · simp at h
  · rename_i _ num r0 hn
    simp only [mapRange] at h
    split at h
    · simp at h
    · rename_i _ m r2 hl
      simp only [Except.ok.injEq, Prod.mk.injEq] at h
      exact ⟨num, r0, m, hn, by rw [hl, h.2], h.1.symm⟩

/-- C12. Decode establishes the key/string consistency invariant: whatever the
primitives and the bytes, if `ViewInfo.Deserialize` (respectively
`UserStakeInfo.Deserialize`) succeeds, the receiver holds an initialized mapping
in which every record is stored under the key that its own `PeerPubKey` string
derives, and no key occurs twice. -/
theorem Deserialize_establishes_consistency [DecidableEq K] [Inhabited A] (c : Codec K A)
    (v0 : ViewInfo K A) (u0 : UserStakeInfo K) (r : Reader) :
    (∀ v r1, ViewInfo.Deserialize c v0 r = .ok (v, r1) →
      ∃ m, v.Peers = some m ∧ (∀ e ∈ m, c.Derives e.2.PeerPubKey e.1) ∧
        (m.map Prod.fst).Nodup) ∧
    (∀ u r1, UserStakeInfo.Deserialize c u0 r = .ok (u, r1) →
      ∃ m, u.Peers = some m ∧ (∀ e ∈ m, c.Derives e.2.PeerPubKey e.1) ∧
        (m.map Prod.fst).Nodup) := by
  constructor
  · intro v r1 h
    obtain ⟨num, r0, m, _, hl, rfl⟩ := viewInfo_Deserialize_ok c v0 v r r1 h
    exact ⟨m, rfl,
      viewInfo_deserializeLoop_derives c _ _ [] _ _ _
        (fun e he => absurd he (List.not_mem_nil e)) hl,
      viewInfo_deserializeLoop_nodup c _ _ [] _ _ _ List.nodup_nil hl⟩
  · intro u r1 h
    obtain ⟨num, r0, m, _, hl, rfl⟩ := userStakeInfo_Deserialize_ok c u0 u r r1 h
    exact ⟨m, rfl,
      userStakeInfo_deserializeLoop_derives c _ _ _ _ _ _
        (fun e he => absurd he (List.not_mem_nil e)) hl,
      userStakeInfo_deserializeLoop_nodup c _ _ [] _ _ _ List.nodup_nil hl⟩

set_option maxRecDepth 100000 in
/-- Witness of C12 on a stream that carries the key strings "aa" and "AA", which
derive the same key: decoding succeeds and the one entry left is stored under
the key its string derives. -/
theorem Deserialize_establishes_consistency_witness :
    ViewInfo.Deserialize Sample.codec { Peers := none }
        (ViewInfo.layout Sample.codec [Sample.peerAA, Sample.peerAAupper]) =
      .ok ({ Peers := some [(Sample.keyAA, Sample.peerAAupper)] }, []) ∧
    Sample.codec.Derives Sample.peerAAupper.PeerPubKey Sample.keyAA ∧
    ∃ m, (some [(Sample.keyAA, Sample.peerAAupper)] : Option _) = some m ∧
      (∀ e ∈ m, Sample.codec.Derives e.2.PeerPubKey e.1) ∧ (m.map Prod.fst).Nodup :=
  ⟨rfl, ⟨[170], rfl, rfl⟩,
    (Deserialize_establishes_consistency Sample.codec { Peers := none } { Peers := none }
      (ViewInfo.layout Sample.codec [Sample.peerAA, Sample.peerAAupper])).1
      { Peers := some [(Sample.keyAA, Sample.peerAAupper)] } [] rfl⟩


/-! ## Errors of the collection decoders -/

theorem userStakeInfo_deserializeLoop_amount_error [DecidableEq K] (c : Codec K A)
    (n i : Nat) (peers : List (K × UserPeerStakeInfo)) (r r1 : Reader) (s : String) (k : K)
    (hs : c.ReadString r = .ok (s, r1)) (hk : c.Derives s k) :
    (∀ err, c.ReadVarUint r1 = .error err →
      UserStakeInfo.deserializeLoop c (n + 1) i peers r =
        .error ("deserialze: deserialize whole fee failed, err: " ++ err)) ∧
    (∀ v r2 err, c.ReadVarUint r1 = .ok (v, r2) → c.ReadVarUint r2 = .error err →
      UserStakeInfo.deserializeLoop c (n + 1) i peers r =
        .error ("deserialze: deserialize whole fee failed, err: " ++ err)) := by
  obtain ⟨data, hd, hp⟩ := hk
  constructor
  · intro err herr
    simp only [UserStakeInfo.deserializeLoop, hs, hd, hp, herr]
  · intro v r2 err hv herr
    simp only [UserStakeInfo.deserializeLoop, hs, hd, hp, hv, herr]

set_option maxRecDepth 100000 in
/-- C13, the code at the failing input. A record of a view that fails at index 1
is reported with its index, and so is a user stake whose key string cannot be
read at index 1; but a user stake whose stake amount cannot be read is reported
by the same error, with no index in it, whether it is the entry of index 1 or
the entry of index 0. -/
theorem userStakeInfo_amount_error_without_index :
    ViewInfo.Deserialize Sample.codec { Peers := none }
        (Sample.codec.encVarUint 2 ++ Sample.peerAA.layout Sample.codec ++
          Sample.codec.encString "bb") =
      .error "deserialize: index 1, err: deserialize: read owner failed, err: unexpected EOF" ∧
    UserStakeInfo.Deserialize Sample.codec { Peers := none }
        (Sample.codec.encVarUint 2 ++ Sample.stakeBB.layout Sample.codec) =
      .error "deserialze: read peer pub key failed, index 1, err: unexpected EOF" ∧
    UserStakeInfo.Deserialize Sample.codec { Peers := none }
        (Sample.codec.encVarUint 2 ++ Sample.stakeBB.layout Sample.codec ++
          Sample.codec.encString "aa") =
      .error "deserialze: deserialize whole fee failed, err: unexpected EOF" ∧
    UserStakeInfo.Deserialize Sample.codec { Peers := none }
        (Sample.codec.encVarUint 1 ++ Sample.codec.encString "aa") =
      .error "deserialze: deserialize whole fee failed, err: unexpected EOF" :=
  ⟨rfl, rfl, rfl, rfl⟩

set_option maxRecDepth 100000 in
/-- C14, the code at the failing input. `PeerViewInfo.Deserialize` names the field
it could not read (the owner, the whole fee), but in `UserStakeInfo.Deserialize`
a stream cut before the stake amount and a stream cut before the unfreeze amount
are reported by one and the same error, which names neither field. -/
theorem userStakeInfo_amount_errors_coincide :
    PeerViewInfo.Deserialize Sample.codec PeerViewInfo.zero (Sample.codec.encString "aa") =
      .error "deserialize: read owner failed, err: unexpected EOF" ∧
    PeerViewInfo.Deserialize Sample.codec PeerViewInfo.zero
        (Sample.codec.encString "aa" ++ Sample.codec.encAddress 0) =
      .error "deserialize: read whole fee failed, err: unexpected EOF" ∧
    UserStakeInfo.Deserialize Sample.codec { Peers := none }
        (Sample.codec.encVarUint 1 ++ Sample.codec.encString "aa") =
      .error "deserialze: deserialize whole fee failed, err: unexpected EOF" ∧
    UserStakeInfo.Deserialize Sample.codec { Peers := none }
        (Sample.codec.encVarUint 1 ++ Sample.codec.encString "aa" ++
          Sample.codec.encVarUint 5) =
      .error "deserialze: deserialize whole fee failed, err: unexpected EOF" :=
  ⟨rfl, rfl, rfl, rfl⟩

/-! ## Entries whose key string derives no key -/

theorem viewInfo_deserializeLoop_skip [DecidableEq K] [Inhabited A] (c : Codec K A)
    (hc : c.RoundTrips) (es : List (K × PeerViewInfo A)) :
    ∀ (k i : Nat) (peers : List (K × PeerViewInfo A)) (rest : List Byte),
      (∀ e ∈ es, c.Derives e.2.PeerPubKey e.1) →
      ViewInfo.deserializeLoop c (es.length + k) i peers
          ((es.map (fun e => e.2.layout c)).flatten ++ rest) =
        ViewInfo.deserializeLoop c k (i + es.length)
          (es.foldl (fun m e => mapAssign m e.1 e.2) peers) rest := by
  induction es with
  | nil =>
    intro k i peers rest _
    simp
  | cons e es ih =>
    intro k i peers rest hall
    obtain ⟨data, hd, hk⟩ := hall e (List.mem_cons_self _ _)
    have hn : (e :: es).length + k = (es.length + k) + 1 := by
      simp only [List.length_cons]
      omega
    have hi : i + (e :: es).length = (i + 1) + es.length := by
      simp only [List.length_cons]
      omega
    rw [hn, hi]
    simp only [List.map_cons, List.flatten_cons, List.append_assoc,
      ViewInfo.deserializeLoop, peerViewInfo_Deserialize_layout c hc, hd, hk, List.foldl_cons]
    exact ih _ _ _ _ (fun e1 he1 => hall e1 (List.mem_cons_of_mem _ he1))

theorem viewInfo_deserializeLoopPeers_skip [DecidableEq K] [Inhabited A] (c : Codec K A)
    (hc : c.RoundTrips) (es : List (K × PeerViewInfo A)) :
    ∀ (k : Nat) (peers : List (K × PeerViewInfo A)) (rest : List Byte),
      (∀ e ∈ es, c.Derives e.2.PeerPubKey e.1) →
      ViewInfo.deserializeLoopPeers c (es.length + k) peers
          ((es.map (fun e => e.2.layout c)).flatten ++ rest) =
        ViewInfo.deserializeLoopPeers c k
          (es.foldl (fun m e => mapAssign m e.1 e.2) peers) rest := by
  induction es with
  | nil =>
    intro k peers rest _
    simp
  | cons e es ih =>
    intro k peers rest hall
    obtain ⟨data, hd, hk⟩ := hall e (List.mem_cons_self _ _)
    have hn : (e :: es).length + k = (es.length + k) + 1 := by
      simp only [List.length_cons]
      omega
    rw [hn]
    simp only [List.map_cons, List.flatten_cons, List.append_assoc,
      ViewInfo.deserializeLoopPeers, peerViewInfo_Deserialize_layout c hc, hd, hk,
      List.foldl_cons]
    exact ih _ _ _ (fun e1 he1 => hall e1 (List.mem_cons_of_mem _ he1))

theorem userStakeInfo_deserializeLoop_skip [DecidableEq K] (c : Codec K A)
    (hc : c.RoundTrips) (es : List (K × UserPeerStakeInfo)) :
    ∀ (k i : Nat) (peers : List (K × UserPeerStakeInfo)) (rest : List Byte),
      (∀ e ∈ es, c.Derives e.2.PeerPubKey e.1) →
      UserStakeInfo.deserializeLoop c (es.length + k) i peers
          ((es.map (fun e => e.2.layout c)).flatten ++ rest) =
        UserStakeInfo.deserializeLoop c k (i + es.length)
          (es.foldl (fun m e => mapAssign m e.1 e.2) peers) rest := by
  induction es with
  | nil =>
    intro k i peers rest _
    simp
  | cons e es ih =>
    intro k i peers rest hall
    obtain ⟨data, hd, hk⟩ := hall e (List.mem_cons_self _ _)
    have hn : (e :: es).length + k = (es.length + k) + 1 := by
      simp only [List.length_cons]
      omega
    have hi : i + (e :: es).length = (i + 1) + es.length := by
      simp only [List.length_cons]
      omega
    have h := ih k (i + 1) (mapAssign peers e.1 e.2) rest
      (fun e1 he1 => hall e1 (List.mem_cons_of_mem _ he1))
    rw [hn, hi, List.foldl_cons, ← h]
    simp only [List.map_cons, List.flatten_cons, UserPeerStakeInfo.layout, List.append_assoc,
      UserStakeInfo.deserializeLoop, hc.string, hc.varUint, hd, hk]

theorem userStakeInfo_deserializeLoopPeers_skip [DecidableEq K] (c : Codec K A)
    (hc : c.RoundTrips) (es : List (K × UserPeerStakeInfo)) :
    ∀ (k : Nat) (peers : List (K × UserPeerStakeInfo)) (rest : List Byte),
      (∀ e ∈ es, c.Derives e.2.PeerPubKey e.1) →
      UserStakeInfo.deserializeLoopPeers c (es.length + k) peers
          ((es.map (fun e => e.2.layout c)).flatten ++ rest) =
        UserStakeInfo.deserializeLoopPeers c k
          (es.foldl (fun m e => mapAssign m e.1 e.2) peers) rest := by
  induction es with
  | nil =>
    intro k peers rest _
    simp
  | cons e es ih =>
    intro k peers rest hall
    obtain ⟨data, hd, hk⟩ := hall e (List.mem_cons_self _ _)
    have hn : (e :: es).length + k = (es.length + k) + 1 := by
      simp only [List.length_cons]
      omega
    have h := ih k (mapAssign peers e.1 e.2) rest
      (fun e1 he1 => hall e1 (List.mem_cons_of_mem _ he1))
    rw [hn, List.foldl_cons, ← h]
    simp only [List.map_cons, List.flatten_cons, UserPeerStakeInfo.layout, List.append_assoc,
      UserStakeInfo.deserializeLoopPeers, hc.string, hc.varUint, hd, hk]


/-- C16. Collection decode rejects underivable peer keys: let the primitive codecs
round-trip and let a stream hold a count, then complete records `es` (fewer than
the count) whose key strings derive keys, then a complete record whose
`PeerPubKey` string derives none. If `hex.DecodeString` fails on that string,
`ViewInfo.Deserialize` fails with "deserialze: decode pub key failed, err: ..."
and `UserStakeInfo.Deserialize` with "deserialze: decode param pub key failed,
err: ..."; if the decoded bytes are not a public key they fail with
"deserialze: deserialize pub key failed, err: ..." and "deserialze: deserialize
param pub key failed, err: ...". In each case the receiver is left with the map
built from the records `es` alone: the offending entry is not inserted. -/
theorem Deserialize_rejects_underivable_key [DecidableEq K] [Inhabited A] (c : Codec K A)
    (hc : c.RoundTrips) (nv nu : Uint64) (es : List (K × PeerViewInfo A))
    (us : List (K × UserPeerStakeInfo))
    (hes : ∀ e ∈ es, c.Derives e.2.PeerPubKey e.1) (hel : es.length < nv.val)
    (hus : ∀ e ∈ us, c.Derives e.2.PeerPubKey e.1) (hul : us.length < nu.val)
    (x : PeerViewInfo A) (y : UserPeerStakeInfo) (v0 : ViewInfo K A) (u0 : UserStakeInfo K)
    (rest : List Byte) :
    (∀ err, c.DecodeString x.PeerPubKey = .error err →
      ViewInfo.Deserialize c v0 (c.encVarUint nv ++
          ((es.map (fun e => e.2.layout c)).flatten ++ (x.layout c ++ rest))) =
        .error ("deserialze: decode pub key failed, err: " ++ err) ∧
      ViewInfo.DeserializeReceiver c v0 (c.encVarUint nv ++
          ((es.map (fun e => e.2.layout c)).flatten ++ (x.layout c ++ rest))) =
        { Peers := some (es.foldl (fun m e => mapAssign m e.1 e.2) []) }) ∧
    (∀ data err, c.DecodeString x.PeerPubKey = .ok data →
      c.DeserializePublicKey data = .error err →
      ViewInfo.Deserialize c v0 (c.encVarUint nv ++
          ((es.map (fun e => e.2.layout c)).flatten ++ (x.layout c ++ rest))) =
        .error ("deserialze: deserialize pub key failed, err: " ++ err) ∧
      ViewInfo.DeserializeReceiver c v0 (c.encVarUint nv ++
          ((es.map (fun e => e.2.layout c)).flatten ++ (x.layout c ++ rest))) =
        { Peers := some (es.foldl (fun m e => mapAssign m e.1 e.2) []) }) ∧
    (∀ err, c.DecodeString y.PeerPubKey = .error err →
      UserStakeInfo.Deserialize c u0 (c.encVarUint nu ++
          ((us.map (fun e => e.2.layout c)).flatten ++ (y.layout c ++ rest))) =
        .error ("deserialze: decode param pub key failed, err: " ++ err) ∧
      UserStakeInfo.DeserializeReceiver c u0 (c.encVarUint nu ++
          ((us.map (fun e => e.2.layout c)).flatten ++ (y.layout c ++ rest))) =
        { Peers := some (us.foldl (fun m e => mapAssign m e.1 e.2) []) }) ∧
    (∀ data err, c.DecodeString y.PeerPubKey = .ok data →
      c.DeserializePublicKey data = .error err →
      UserStakeInfo.Deserialize c u0 (c.encVarUint nu ++
          ((us.map (fun e => e.2.layout c)).flatten ++ (y.layout c ++ rest))) =
        .error ("deserialze: deserialize param pub key failed, err: " ++ err) ∧
      UserStakeInfo.DeserializeReceiver c u0 (c.encVarUint nu ++
          ((us.map (fun e => e.2.layout c)).flatten ++ (y.layout c ++ rest))) =
        { Peers := some (us.foldl (fun m e => mapAssign m e.1 e.2) []) }) := by
  obtain ⟨kv, hkv⟩ := Nat.exists_eq_add_of_lt hel
  obtain ⟨ku, hku⟩ := Nat.exists_eq_add_of_lt hul
  rw [Nat.add_assoc] at hkv hku
  have hy : y.layout c ++ rest =
      c.encString y.PeerPubKey ++ (c.encVarUint y.StakeAmount ++
        (c.encVarUint y.UnfreezeAmount ++ rest)) := by
    simp [UserPeerStakeInfo.layout, List.append_assoc]
  refine ⟨?_, ?_, ?_, ?_⟩
  · intro err herr
    constructor
    · simp only [ViewInfo.Deserialize, hc.varUint, mapRange, hkv,
        viewInfo_deserializeLoop_skip c hc es _ _ _ _ hes, ViewInfo.deserializeLoop,
        peerViewInfo_Deserialize_layout c hc, herr]
    · simp only [ViewInfo.DeserializeReceiver, hc.varUint, mapRange, hkv,
        viewInfo_deserializeLoopPeers_skip c hc es _ _ _ hes, ViewInfo.deserializeLoopPeers,
        peerViewInfo_Deserialize_layout c hc, herr]
  · intro data err hd herr
    constructor
    · simp only [ViewInfo.Deserialize, hc.varUint, mapRange, hkv,
        viewInfo_deserializeLoop_skip c hc es _ _ _ _ hes, ViewInfo.deserializeLoop,
        peerViewInfo_Deserialize_layout c hc, hd, herr]
    · simp only [ViewInfo.DeserializeReceiver, hc.varUint, mapRange, hkv,
        viewInfo_deserializeLoopPeers_skip c hc es _ _ _ hes, ViewInfo.deserializeLoopPeers,
        peerViewInfo_Deserialize_layout c hc, hd, herr]
  · intro err herr
    constructor
    · simp only [UserStakeInfo.Deserialize, hc.varUint, mapRange, hku,
        userStakeInfo_deserializeLoop_skip c hc us _ _ _ _ hus, hy,
        UserStakeInfo.deserializeLoop, hc.string, herr]
    · simp only [UserStakeInfo.DeserializeReceiver, hc.varUint, mapRange, hku,
        userStakeInfo_deserializeLoopPeers_skip c hc us _ _ _ hus, hy,
        UserStakeInfo.deserializeLoopPeers, hc.string, herr]
  · intro data err hd herr
    constructor
    · simp only [UserStakeInfo.Deserialize, hc.varUint, mapRange, hku,
        userStakeInfo_deserializeLoop_skip c hc us _ _ _ _ hus, hy,
        UserStakeInfo.deserializeLoop, hc.string, hd, herr]
    · simp only [UserStakeInfo.DeserializeReceiver, hc.varUint, mapRange, hku,
        userStakeInfo_deserializeLoopPeers_skip c hc us _ _ _ hus, hy,
        UserStakeInfo.deserializeLoopPeers, hc.string, hd, herr]


theorem viewInfo_deserializeLoopPeers_ok [DecidableEq K] [Inhabited A] (c : Codec K A) :
    ∀ (n i : Nat) (peers peers1 : List (K × PeerViewInfo A)) (r r1 : Reader),
      ViewInfo.deserializeLoop c n i peers r = .ok (peers1, r1) →
      ViewInfo.deserializeLoopPeers c n peers r = peers1 := by
  intro n
  induction n with
  | zero =>
    intro i peers peers1 r r1 h
    simp only [ViewInfo.deserializeLoop, Except.ok.injEq, Prod.mk.injEq] at h
    simp only [ViewInfo.deserializeLoopPeers, h.1]
  | succ n ih =>
    intro i peers peers1 r r1 h
    simp only [ViewInfo.deserializeLoop] at h
    simp only [ViewInfo.deserializeLoopPeers]
    split at h
    · simp at h
    · split at h
      · simp at h
      · split at h
        · simp at h
        · exact ih _ _ _ _ _ h

theorem userStakeInfo_deserializeLoopPeers_ok [DecidableEq K] (c : Codec K A) :
    ∀ (n i : Nat) (peers peers1 : List (K × UserPeerStakeInfo)) (r r1 : Reader),
      UserStakeInfo.deserializeLoop c n i peers r = .ok (peers1, r1) →
      UserStakeInfo.deserializeLoopPeers c n peers r = peers1 := by
  intro n
  induction n with
  | zero =>
    intro i peers peers1 r r1 h
    simp only [UserStakeInfo.deserializeLoop, Except.ok.injEq, Prod.mk.injEq] at h
    simp only [UserStakeInfo.deserializeLoopPeers, h.1]
  | succ n ih =>
    intro i peers peers1 r r1 h
    simp only [UserStakeInfo.deserializeLoop] at h
    simp only [UserStakeInfo.deserializeLoopPeers]
    split at h
    · simp at h
    · split at h
      · simp at h
      · split at h
        · simp at h
        · split at h
          · simp at h
          · split at h
            · simp at h
            · exact ih _ _ _ _ _ h

theorem viewInfo_DeserializeReceiver_ok [DecidableEq K] [Inhabited A] (c : Codec K A)
    (v0 v : ViewInfo K A) (r r1 : Reader) (h : ViewInfo.Deserialize c v0 r = .ok (v, r1)) :
    ViewInfo.DeserializeReceiver c v0 r = v := by
  obtain ⟨num, r0, m, hn, hl, rfl⟩ := viewInfo_Deserialize_ok c v0 v r r1 h
  simp only [ViewInfo.DeserializeReceiver, hn, mapRange,
    viewInfo_deserializeLoopPeers_ok c _ _ _ _ _ _ hl]

theorem userStakeInfo_DeserializeReceiver_ok [DecidableEq K] (c : Codec K A)
    (u0 u : UserStakeInfo K) (r r1 : Reader)
    (h : UserStakeInfo.Deserialize c u0 r = .ok (u, r1)) :
    UserStakeInfo.DeserializeReceiver c u0 r = u := by
  obtain ⟨num, r0, m, hn, hl, rfl⟩ := userStakeInfo_Deserialize_ok c u0 u r r1 h
  simp only [UserStakeInfo.DeserializeReceiver, hn, mapRange,
    userStakeInfo_deserializeLoopPeers_ok c _ _ _ _ _ _ hl]

set_option maxRecDepth 100000 in
/-- Witness of C16: after the well-formed entry "aa" (respectively "bb") comes an
entry whose key string is "zz", which is not hexadecimal, or the empty string,
which decodes to no public key. -/
theorem Deserialize_rejects_underivable_key_witness :
    Sample.codec.RoundTrips ∧
    (∀ e ∈ [(Sample.keyAA, Sample.peerAA)], Sample.codec.Derives e.2.PeerPubKey e.1) ∧
    (∀ e ∈ [(Sample.keyBB, Sample.stakeBB)], Sample.codec.Derives e.2.PeerPubKey e.1) ∧
    (ViewInfo.Deserialize Sample.codec { Peers := none } (Sample.codec.encVarUint 2 ++
        (([(Sample.keyAA, Sample.peerAA)].map (fun e => e.2.layout Sample.codec)).flatten ++
          ((Sample.peerNamed "zz").layout Sample.codec ++ []))) =
      .error ("deserialze: decode pub key failed, err: " ++ "encoding/hex: invalid byte") ∧
      ViewInfo.DeserializeReceiver Sample.codec { Peers := none }
          (Sample.codec.encVarUint 2 ++
            (([(Sample.keyAA, Sample.peerAA)].map
                (fun e => e.2.layout Sample.codec)).flatten ++
              ((Sample.peerNamed "zz").layout Sample.codec ++ []))) =
        { Peers := some ([(Sample.keyAA, Sample.peerAA)].foldl
            (fun m e => mapAssign m e.1 e.2) []) }) ∧
    (UserStakeInfo.Deserialize Sample.codec { Peers := none } (Sample.codec.encVarUint 2 ++
        (([(Sample.keyBB, Sample.stakeBB)].map (fun e => e.2.layout Sample.codec)).flatten ++
          (Sample.stakeEmpty.layout Sample.codec ++ []))) =
      .error ("deserialze: deserialize param pub key failed, err: " ++ "invalid public key") ∧
      UserStakeInfo.DeserializeReceiver Sample.codec { Peers := none }
          (Sample.codec.encVarUint 2 ++
            (([(Sample.keyBB, Sample.stakeBB)].map
                (fun e => e.2.layout Sample.codec)).flatten ++
              (Sample.stakeEmpty.layout Sample.codec ++ []))) =
        { Peers := some ([(Sample.keyBB, Sample.stakeBB)].foldl
            (fun m e => mapAssign m e.1 e.2) []) }) ∧
    ViewInfo.Deserialize Sample.codec { Peers := none } (Sample.codec.encVarUint 2 ++
        (Sample.peerAA.layout Sample.codec ++ (Sample.peerNamed "").layout Sample.codec)) =
      .error "deserialze: deserialize pub key failed, err: invalid public key" ∧
    UserStakeInfo.Deserialize Sample.codec { Peers := none } (Sample.codec.encVarUint 2 ++
        (Sample.stakeBB.layout Sample.codec ++ Sample.stakeZZ.layout Sample.codec)) =
      .error "deserialze: decode param pub key failed, err: encoding/hex: invalid byte" :=
  have h1 : ∀ e ∈ [(Sample.keyAA, Sample.peerAA)],
      Sample.codec.Derives e.2.PeerPubKey e.1 := fun e he => by
    rw [List.mem_singleton] at he
    subst he
    exact ⟨[170], rfl, rfl⟩
  have h2 : ∀ e ∈ [(Sample.keyBB, Sample.stakeBB)],
      Sample.codec.Derives e.2.PeerPubKey e.1 := fun e he => by
    rw [List.mem_singleton] at he
    subst he
    exact ⟨[187], rfl, rfl⟩
  ⟨Sample.codec_roundTrips, h1, h2,
    (Deserialize_rejects_underivable_key Sample.codec Sample.codec_roundTrips 2 2 _ _ h1
      (by decide) h2 (by decide) (Sample.peerNamed "zz") Sample.stakeEmpty { Peers := none }
      { Peers := none } []).1 _ rfl,
    (Deserialize_rejects_underivable_key Sample.codec Sample.codec_roundTrips 2 2 _ _ h1
      (by decide) h2 (by decide) (Sample.peerNamed "zz") Sample.stakeEmpty { Peers := none }
      { Peers := none } []).2.2.2 _ _ rfl rfl,
    rfl, rfl⟩


/-! ## Streams that are not in canonical order -/

theorem derives_unique (c : Codec K A) {s : String} {k1 k2 : K} (h1 : c.Derives s k1)
    (h2 : c.Derives s k2) : k1 = k2 := by
  obtain ⟨d1, hd1, hk1⟩ := h1
  obtain ⟨d2, hd2, hk2⟩ := h2
  rw [hd1] at hd2
  have hd : d1 = d2 := by
    simpa using hd2
  subst hd
  rw [hk1] at hk2
  simpa using hk2

theorem viewInfo_consistent_strings (c : Codec K A) (m : List (K × PeerViewInfo A))
    (hm : ViewInfo.Consistent c m) : (m.map (fun e => e.2.PeerPubKey)).Nodup := by
  have hk := hm.2
  unfold List.Nodup at hk ⊢
  rw [List.pairwise_map] at hk ⊢
  refine List.Pairwise.imp_of_mem ?_ hk
  intro a b ha hb hab hs
  apply hab
  have h1 := hm.1 a ha
  have h2 := hm.1 b hb
  rw [hs] at h1
  exact derives_unique c h1 h2

theorem userStakeInfo_consistent_strings (c : Codec K A) (m : List (K × UserPeerStakeInfo))
    (hm : UserStakeInfo.Consistent c m) : (m.map (fun e => e.2.PeerPubKey)).Nodup := by
  have hk := hm.2
  unfold List.Nodup at hk ⊢
  rw [List.pairwise_map] at hk ⊢
  refine List.Pairwise.imp_of_mem ?_ hk
  intro a b ha hb hab hs
  apply hab
  have h1 := hm.1 a ha
  have h2 := hm.1 b hb
  rw [hs] at h1
  exact derives_unique c h1 h2

theorem peerViewInfo_layouts_injective (c : Codec K A) (hc : c.RoundTrips) :
    ∀ xs ys : List (PeerViewInfo A), xs.length = ys.length →
      (xs.map (PeerViewInfo.layout c)).flatten = (ys.map (PeerViewInfo.layout c)).flatten →
      xs = ys := by
  intro xs
  induction xs with
  | nil =>
    intro ys hl _
    cases ys with
    | nil => rfl
    | cons y ys => simp at hl
  | cons x xs ih =>
    intro ys hl h
    cases ys with
    | nil => simp at hl
    | cons y ys =>
      simp only [List.map_cons, List.flatten_cons] at h
      have h1 := peerViewInfo_Deserialize_layout c hc x x
        ((xs.map (PeerViewInfo.layout c)).flatten)
      have h2 := peerViewInfo_Deserialize_layout c hc y x
        ((ys.map (PeerViewInfo.layout c)).flatten)
      rw [h, h2] at h1
      simp only [Except.ok.injEq, Prod.mk.injEq] at h1
      rw [h1.1, ih ys (by simpa using hl) h1.2.symm]

theorem userPeerStakeInfo_layouts_injective (c : Codec K A) (hc : c.RoundTrips) :
    ∀ xs ys : List UserPeerStakeInfo, xs.length = ys.length →
      (xs.map (UserPeerStakeInfo.layout c)).flatten =
        (ys.map (UserPeerStakeInfo.layout c)).flatten →
      xs = ys := by
  intro xs
  induction xs with
  | nil =>
    intro ys hl _
    cases ys with
    | nil => rfl
    | cons y ys => simp at hl
  | cons x xs ih =>
    intro ys hl h
    cases ys with
    | nil => simp at hl
    | cons y ys =>
      simp only [List.map_cons, List.flatten_cons, UserPeerStakeInfo.layout,
        List.append_assoc] at h
      have h1 := congrArg c.ReadString h
      rw [hc.string, hc.string] at h1
      simp only [Except.ok.injEq, Prod.mk.injEq] at h1
      have h2 := congrArg c.ReadVarUint h1.2
      rw [hc.varUint, hc.varUint] at h2
      simp only [Except.ok.injEq, Prod.mk.injEq] at h2
      have h3 := congrArg c.ReadVarUint h2.2
      rw [hc.varUint, hc.varUint] at h3
      simp only [Except.ok.injEq, Prod.mk.injEq] at h3
      have hxy : x = y := by
        cases x
        cases y
        simp only [UserPeerStakeInfo.mk.injEq]
        exact ⟨h1.1, h2.1, h3.1⟩
      have hrest : (xs.map (UserPeerStakeInfo.layout c)).flatten =
          (ys.map (UserPeerStakeInfo.layout c)).flatten := by
        simpa [UserPeerStakeInfo.layout, List.append_assoc] using h3.2
      rw [hxy, ih ys (by simpa using hl) hrest]

theorem viewInfo_layout_injective (c : Codec K A) (hc : c.RoundTrips)
    (xs ys : List (PeerViewInfo A)) (hx : xs.length < 2 ^ 64) (hy : ys.length < 2 ^ 64)
    (h : ViewInfo.layout c xs = ViewInfo.layout c ys) : xs = ys := by
  unfold ViewInfo.layout at h
  have h1 := congrArg c.ReadVarUint h
  rw [hc.varUint, hc.varUint] at h1
  simp only [Except.ok.injEq, Prod.mk.injEq] at h1
  have hl : xs.length = ys.length := by
    rw [← toUint64_val _ hx, ← toUint64_val _ hy, h1.1]
  exact peerViewInfo_layouts_injective c hc xs ys hl h1.2

theorem userStakeInfo_layout_injective (c : Codec K A) (hc : c.RoundTrips)
    (xs ys : List UserPeerStakeInfo) (hx : xs.length < 2 ^ 64) (hy : ys.length < 2 ^ 64)
    (h : UserStakeInfo.layout c xs = UserStakeInfo.layout c ys) : xs = ys := by
  unfold UserStakeInfo.layout at h
  have h1 := congrArg c.ReadVarUint h
  rw [hc.varUint, hc.varUint] at h1
  simp only [Except.ok.injEq, Prod.mk.injEq] at h1
  have hl : xs.length = ys.length := by
    rw [← toUint64_val _ hx, ← toUint64_val _ hy, h1.1]
  exact userPeerStakeInfo_layouts_injective c hc xs ys hl h1.2


/-- C17. Decode does not enforce canonical order: let the primitive codecs
round-trip, let `m` be a consistent mapping of fewer than `2^64` entries and `es`
any permutation of its entries. On the stream made of `varuint(n)` followed by
the record encodings in the order of `es`, `ViewInfo.Deserialize` succeeds and
yields the mapping `es`, which is a permutation of `m` and agrees with `m` on
every lookup; and when the order of `es` is not the canonical one, encoding the
decoded mapping gives bytes that differ from the accepted stream. The same holds
of `UserStakeInfo`. -/
theorem Deserialize_accepts_any_order [DecidableEq K] [Inhabited A] (c : Codec K A)
    (hc : c.RoundTrips) (m es : List (K × PeerViewInfo A)) (hm : ViewInfo.Consistent c m)
    (hml : m.length < 2 ^ 64) (hes : es.Perm m) (u us : List (K × UserPeerStakeInfo))
    (hu : UserStakeInfo.Consistent c u) (hul : u.length < 2 ^ 64) (hus : us.Perm u)
    (v0 : ViewInfo K A) (u0 : UserStakeInfo K) (rest : List Byte) :
    (ViewInfo.Deserialize c v0 (ViewInfo.layout c (es.map Prod.snd) ++ rest) =
        .ok ({ Peers := some es }, rest) ∧
      ∀ k, mapIndex es k = mapIndex m k) ∧
    (es.map Prod.snd ≠ ViewInfo.peerInfoList { Peers := some m } →
      ∃ w, (ViewInfo.Serialize c { Peers := some es } Writer.buffer).2 = .ok w ∧
        w.buf ≠ ViewInfo.layout c (es.map Prod.snd)) ∧
    (UserStakeInfo.Deserialize c u0 (UserStakeInfo.layout c (us.map Prod.snd) ++ rest) =
        .ok ({ Peers := some us }, rest) ∧
      ∀ k, mapIndex us k = mapIndex u k) ∧
    (us.map Prod.snd ≠ UserStakeInfo.userPeerInfoList { Peers := some u } →
      ∃ w, (UserStakeInfo.Serialize c { Peers := some us } Writer.buffer).2 = .ok w ∧
        w.buf ≠ UserStakeInfo.layout c (us.map Prod.snd)) := by
  have hesl : es.length < 2 ^ 64 := by
    rw [hes.length_eq]
    exact hml
  have husl : us.length < 2 ^ 64 := by
    rw [hus.length_eq]
    exact hul
  have hend : ((es.map Prod.fst)).Nodup := (List.Perm.nodup_iff (hes.map Prod.fst)).mpr hm.2
  have hund : ((us.map Prod.fst)).Nodup := (List.Perm.nodup_iff (hus.map Prod.fst)).mpr hu.2
  refine ⟨⟨?_, fun k => mapIndex_perm hes hm.2 k⟩, ?_,
    ⟨?_, fun k => mapIndex_perm hus hu.2 k⟩, ?_⟩
  · have h := viewInfo_Deserialize_layout c hc es hesl
      (fun e he => hm.1 e (hes.mem_iff.mp he)) v0 rest
    rw [foldl_mapAssign_of_nodup _ _ (by simpa using hend)] at h
    simpa using h
  · intro hne
    refine ⟨_, viewInfo_Serialize_unbounded c _ Writer.buffer rfl, ?_⟩
    have hs : ViewInfo.peerInfoList { Peers := some es } =
        ViewInfo.peerInfoList { Peers := some m } := by
      unfold ViewInfo.peerInfoList
      refine sortSliceStable_eq_of_perm (fun a : PeerViewInfo A => a.PeerPubKey)
        (hes.map _) ?_
      have h := (List.Perm.nodup_iff (hes.map (fun e => e.2.PeerPubKey))).mpr
        (viewInfo_consistent_strings c m hm)
      simpa [mapRange, List.map_map, Function.comp_def] using h
    have hl : (ViewInfo.peerInfoList { Peers := some m } : List (PeerViewInfo A)).length =
        m.length := by
      unfold ViewInfo.peerInfoList sortSliceStable
      rw [List.length_insertionSort]
      simp [mapRange]
    intro hbuf
    simp only [Writer.buffer, List.nil_append, hs] at hbuf
    apply hne
    exact (viewInfo_layout_injective c hc _ _ (by rw [hl]; exact hml)
      (by rw [List.length_map]; exact hesl) hbuf).symm
  · have h := userStakeInfo_Deserialize_layout c hc us husl
      (fun e he => hu.1 e (hus.mem_iff.mp he)) u0 rest
    rw [foldl_mapAssign_of_nodup _ _ (by simpa using hund)] at h
    simpa using h
  · intro hne
    refine ⟨_, userStakeInfo_Serialize_unbounded c _ Writer.buffer rfl, ?_⟩
    have hs : UserStakeInfo.userPeerInfoList { Peers := some us } =
        UserStakeInfo.userPeerInfoList { Peers := some u } := by
      unfold UserStakeInfo.userPeerInfoList
      refine sortSliceStable_eq_of_perm (fun a : UserPeerStakeInfo => a.PeerPubKey)
        (hus.map _) ?_
      have h := (List.Perm.nodup_iff (hus.map (fun e => e.2.PeerPubKey))).mpr
        (userStakeInfo_consistent_strings c u hu)
      simpa [mapRange, List.map_map, Function.comp_def] using h
    have hl : (UserStakeInfo.userPeerInfoList { Peers := some u }).length = u.length := by
      unfold UserStakeInfo.userPeerInfoList sortSliceStable
      rw [List.length_insertionSort]
      simp [mapRange]
    intro hbuf
    simp only [Writer.buffer, List.nil_append, hs] at hbuf
    apply hne
    exact (userStakeInfo_layout_injective c hc _ _ (by rw [hl]; exact hul)
      (by rw [List.length_map]; exact husl) hbuf).symm

set_option maxRecDepth 100000 in
/-- Witness of C17: the streams that list "aa" before "bb" are accepted, and
encoding what they decode to lists "bb" first. -/
theorem Deserialize_accepts_any_order_witness :
    Sample.codec.RoundTrips ∧
    ViewInfo.Consistent Sample.codec
      [(Sample.keyAA, Sample.peerAA), (Sample.keyBB, Sample.peerBB)] ∧
    UserStakeInfo.Consistent Sample.codec
      [(Sample.keyAA, Sample.stakeAA), (Sample.keyBB, Sample.stakeBB)] ∧
    ViewInfo.Deserialize Sample.codec { Peers := none }
        (ViewInfo.layout Sample.codec [Sample.peerAA, Sample.peerBB]) =
      .ok ({ Peers := some [(Sample.keyAA, Sample.peerAA), (Sample.keyBB, Sample.peerBB)] },
        []) ∧
    (∃ w, (ViewInfo.Serialize Sample.codec
          { Peers := some [(Sample.keyAA, Sample.peerAA), (Sample.keyBB, Sample.peerBB)] }
          Writer.buffer).2 = .ok w ∧
      w.buf = ViewInfo.layout Sample.codec [Sample.peerBB, Sample.peerAA]) ∧
    (∃ w, (ViewInfo.Serialize Sample.codec
          { Peers := some [(Sample.keyAA, Sample.peerAA), (Sample.keyBB, Sample.peerBB)] }
          Writer.buffer).2 = .ok w ∧
      w.buf ≠ ViewInfo.layout Sample.codec
        ([(Sample.keyAA, Sample.peerAA), (Sample.keyBB, Sample.peerBB)].map Prod.snd)) ∧
    (∃ w, (UserStakeInfo.Serialize Sample.codec
          { Peers := some [(Sample.keyAA, Sample.stakeAA), (Sample.keyBB, Sample.stakeBB)] }
          Writer.buffer).2 = .ok w ∧
      w.buf ≠ UserStakeInfo.layout Sample.codec
        ([(Sample.keyAA, Sample.stakeAA), (Sample.keyBB, Sample.stakeBB)].map Prod.snd)) :=
  have h1 : ViewInfo.Consistent Sample.codec
      [(Sample.keyAA, Sample.peerAA), (Sample.keyBB, Sample.peerBB)] :=
    ⟨fun e he => by
      simp only [List.mem_cons, List.mem_singleton, List.not_mem_nil, or_false] at he
      rcases he with rfl | rfl
      · exact ⟨[170], rfl, rfl⟩
      · exact ⟨[187], rfl, rfl⟩, by decide⟩
  have h2 : UserStakeInfo.Consistent Sample.codec
      [(Sample.keyAA, Sample.stakeAA), (Sample.keyBB, Sample.stakeBB)] :=
    ⟨fun e he => by
      simp only [List.mem_cons, List.mem_singleton, List.not_mem_nil, or_false] at he
      rcases he with rfl | rfl
      · exact ⟨[170], rfl, rfl⟩
      · exact ⟨[187], rfl, rfl⟩, by decide⟩
  ⟨Sample.codec_roundTrips, h1, h2, rfl, ⟨_, rfl, rfl⟩,
    (Deserialize_accepts_any_order Sample.codec Sample.codec_roundTrips _ _ h1 (by decide)
      (List.Perm.refl _) _ _ h2 (by decide) (List.Perm.refl _) { Peers := none }
      { Peers := none } []).2.1 (by decide),
    (Deserialize_accepts_any_order Sample.codec Sample.codec_roundTrips _ _ h1 (by decide)
      (List.Perm.refl _) _ _ h2 (by decide) (List.Perm.refl _) { Peers := none }
      { Peers := none } []).2.2.2 (by decide)⟩


/-! ## Tied key strings -/

theorem sortSliceStable_pair_of_tie {α : Type} (key : α → String) (x y : α)
    (h : key x = key y) :
    sortSliceStable (fun a b => strGt (key a) (key b)) [x, y] = [x, y] := by
  have hr : strGt (key y) (key x) = false := by
    rw [strGt_eq_false_iff, h]
  simp [sortSliceStable, List.insertionSort, List.orderedInsert, hr]

/-- C18. Order-dependence when peer-key strings tie: `Serialize` does not check
the consistency invariant, and when the primitive codecs round-trip, a mapping
that holds under two different keys two different records with the same
`PeerPubKey` string is written in the order in which its entries are visited:
the two iteration orders of such a `ViewInfo` (and of such a `UserStakeInfo`)
give two different byte streams, each listing the tied records in iteration
order. -/
theorem Serialize_order_dependent_on_ties (c : Codec K A) (hc : c.RoundTrips) (k1 k2 : K)
    (x y : PeerViewInfo A) (a b : UserPeerStakeInfo) (hk : k1 ≠ k2)
    (hxy : x.PeerPubKey = y.PeerPubKey) (hne : x ≠ y)
    (hab : a.PeerPubKey = b.PeerPubKey) (hne2 : a ≠ b) :
    ([(k1, x), (k2, y)].Perm [(k2, y), (k1, x)] ∧ ([(k1, x), (k2, y)].map Prod.fst).Nodup ∧
      ∃ w1 w2,
        (ViewInfo.Serialize c { Peers := some [(k1, x), (k2, y)] } Writer.buffer).2 = .ok w1 ∧
        (ViewInfo.Serialize c { Peers := some [(k2, y), (k1, x)] } Writer.buffer).2 = .ok w2 ∧
        w1.buf = ViewInfo.layout c [x, y] ∧ w2.buf = ViewInfo.layout c [y, x] ∧
        w1.buf ≠ w2.buf) ∧
    ([(k1, a), (k2, b)].Perm [(k2, b), (k1, a)] ∧ ([(k1, a), (k2, b)].map Prod.fst).Nodup ∧
      ∃ w1 w2,
        (UserStakeInfo.Serialize c { Peers := some [(k1, a), (k2, b)] } Writer.buffer).2 =
          .ok w1 ∧
        (UserStakeInfo.Serialize c { Peers := some [(k2, b), (k1, a)] } Writer.buffer).2 =
          .ok w2 ∧
        w1.buf = UserStakeInfo.layout c [a, b] ∧ w2.buf = UserStakeInfo.layout c [b, a] ∧
        w1.buf ≠ w2.buf) := by
  have hnd : ∀ {V : Type} (p q : V), ([(k1, p), (k2, q)].map Prod.fst).Nodup := by
    intro V p q
    simp [hk]
  have hv1 : ViewInfo.peerInfoList { Peers := some [(k1, x), (k2, y)] } = [x, y] :=
    sortSliceStable_pair_of_tie (fun r : PeerViewInfo A => r.PeerPubKey) x y hxy
  have hv2 : ViewInfo.peerInfoList { Peers := some [(k2, y), (k1, x)] } = [y, x] :=
    sortSliceStable_pair_of_tie (fun r : PeerViewInfo A => r.PeerPubKey) y x hxy.symm
  have hu1 : UserStakeInfo.userPeerInfoList { Peers := some [(k1, a), (k2, b)] } = [a, b] :=
    sortSliceStable_pair_of_tie (fun r : UserPeerStakeInfo => r.PeerPubKey) a b hab
  have hu2 : UserStakeInfo.userPeerInfoList { Peers := some [(k2, b), (k1, a)] } = [b, a] :=
    sortSliceStable_pair_of_tie (fun r : UserPeerStakeInfo => r.PeerPubKey) b a hab.symm
  refine ⟨⟨List.Perm.swap _ _ _, hnd x y, _, _,
      viewInfo_Serialize_unbounded c _ Writer.buffer rfl,
      viewInfo_Serialize_unbounded c _ Writer.buffer rfl, ?_, ?_, ?_⟩,
    ⟨List.Perm.swap _ _ _, hnd a b, _, _,
      userStakeInfo_Serialize_unbounded c _ Writer.buffer rfl,
      userStakeInfo_Serialize_unbounded c _ Writer.buffer rfl, ?_, ?_, ?_⟩⟩
  · simp [Writer.buffer, hv1]
  · simp [Writer.buffer, hv2]
  · simp only [Writer.buffer, List.nil_append, hv1, hv2]
    intro h
    have h1 := viewInfo_layout_injective c hc [x, y] [y, x] (by simp) (by simp) h
    simp only [List.cons.injEq, and_true] at h1
    exact hne h1.1
  · simp [Writer.buffer, hu1]
  · simp [Writer.buffer, hu2]
  · simp only [Writer.buffer, List.nil_append, hu1, hu2]
    intro h
    have h1 := userStakeInfo_layout_injective c hc [a, b] [b, a] (by simp) (by simp) h
    simp only [List.cons.injEq, and_true] at h1
    exact hne2 h1.1

/-- Witness of C18: two records with the key string "aa" and different fees under
the keys `[1]` and `[2]`, and two stakes with the key string "aa" and different
amounts. -/
theorem Serialize_order_dependent_on_ties_witness :
    Sample.codec.RoundTrips ∧ ([1] : Sample.PublicKey) ≠ [2] ∧
    Sample.peerAA.PeerPubKey = Sample.peerAAother.PeerPubKey ∧
    Sample.peerAA ≠ Sample.peerAAother ∧
    Sample.stakeAA.PeerPubKey = Sample.stakeAAother.PeerPubKey ∧
    Sample.stakeAA ≠ Sample.stakeAAother ∧
    (∃ w1 w2,
      (ViewInfo.Serialize Sample.codec
        { Peers := some [([1], Sample.peerAA), ([2], Sample.peerAAother)] }
        Writer.buffer).2 = .ok w1 ∧
      (ViewInfo.Serialize Sample.codec
        { Peers := some [([2], Sample.peerAAother), ([1], Sample.peerAA)] }
        Writer.buffer).2 = .ok w2 ∧
      w1.buf = ViewInfo.layout Sample.codec [Sample.peerAA, Sample.peerAAother] ∧
      w2.buf = ViewInfo.layout Sample.codec [Sample.peerAAother, Sample.peerAA] ∧
      w1.buf ≠ w2.buf) ∧
    (∃ w1 w2,
      (UserStakeInfo.Serialize Sample.codec
        { Peers := some [([1], Sample.stakeAA), ([2], Sample.stakeAAother)] }
        Writer.buffer).2 = .ok w1 ∧
      (UserStakeInfo.Serialize Sample.codec
        { Peers := some [([2], Sample.stakeAAother), ([1], Sample.stakeAA)] }
        Writer.buffer).2 = .ok w2 ∧
      w1.buf = UserStakeInfo.layout Sample.codec [Sample.stakeAA, Sample.stakeAAother] ∧
      w2.buf = UserStakeInfo.layout Sample.codec [Sample.stakeAAother, Sample.stakeAA] ∧
      w1.buf ≠ w2.buf) :=
  ⟨Sample.codec_roundTrips, by decide, rfl, by decide, rfl, by decide,
    (Serialize_order_dependent_on_ties Sample.codec Sample.codec_roundTrips [1] [2]
      Sample.peerAA Sample.peerAAother Sample.stakeAA Sample.stakeAAother (by decide) rfl
      (by decide) rfl (by decide)).1.2.2,
    (Serialize_order_dependent_on_ties Sample.codec Sample.codec_roundTrips [1] [2]
      Sample.peerAA Sample.peerAAother Sample.stakeAA Sample.stakeAAother (by decide) rfl
      (by decide) rfl (by decide)).2.2.2⟩


/-! ## Nil and empty mappings -/

theorem string_append_ne (a e b : String) (n : Nat) (hn : n ≤ a.data.length)
    (h : a.data.take n ≠ b.data.take n) : a ++ e ≠ b := by
  intro hab
  apply h
  rw [← hab, String.data_append, List.take_append_of_le_length hn]

theorem string_append_append_ne (a s e b : String) (n : Nat) (hn : n ≤ a.data.length)
    (h : a.data.take n ≠ b.data.take n) : a ++ s ++ e ≠ b := by
  intro hab
  apply h
  rw [← hab, String.data_append, String.data_append, List.append_assoc,
    List.take_append_of_le_length hn]

theorem viewInfo_GetPeer_not_nil_error [DecidableEq K] (c : Codec K A)
    (m : List (K × PeerViewInfo A)) (h : String) :
    (ViewInfo.GetPeer c { Peers := some m } h).2 ≠ .error "GetPeer: peers is nil" := by
  unfold ViewInfo.GetPeer
  simp only
  split
  · simp only [ne_eq, Except.error.injEq]
    exact string_append_ne _ _ _ 10 (by decide) (by decide)
  · split
    · simp only [ne_eq, Except.error.injEq]
      exact string_append_ne _ _ _ 10 (by decide) (by decide)
    · split
      · simp only [ne_eq, Except.error.injEq]
        exact string_append_append_ne _ _ _ _ 14 (by decide) (by decide)
      · simp

theorem toUint64_zero : toUint64 0 = 0 := rfl

/-- C19. Uninitialized and empty mappings are indistinguishable once encoded: on
every sink `Serialize` returns the same result for the nil mapping and for the
empty mapping, and whenever it succeeds on the nil mapping it has written
`varuint(0)` and nothing else (it does succeed on a sink that accepts every
write). Every successful `Deserialize` leaves an initialized mapping, so that
`GetPeer` on a decoded `ViewInfo` never fails with "GetPeer: peers is nil"; and
when the primitive codecs round-trip, a stream that starts with `varuint(0)` is
decoded to the initialized empty mapping. -/
theorem nil_mapping_encodes_as_empty [DecidableEq K] [Inhabited A] (c : Codec K A)
    (w : Writer) (v0 : ViewInfo K A) (u0 : UserStakeInfo K) (r : Reader) :
    ((ViewInfo.Serialize c { Peers := none } w).2 =
        (ViewInfo.Serialize c { Peers := some [] } w).2 ∧
      (w.room = none →
        (ViewInfo.Serialize c { Peers := none } w).2 =
          .ok { buf := w.buf ++ c.encVarUint 0, room := none }) ∧
      ∀ w1, (ViewInfo.Serialize c { Peers := none } w).2 = .ok w1 →
        w1.buf = w.buf ++ c.encVarUint 0) ∧
    ((UserStakeInfo.Serialize c ({ Peers := none } : UserStakeInfo K) w).2 =
        (UserStakeInfo.Serialize c { Peers := some [] } w).2 ∧
      (w.room = none →
        (UserStakeInfo.Serialize c ({ Peers := none } : UserStakeInfo K) w).2 =
          .ok { buf := w.buf ++ c.encVarUint 0, room := none }) ∧
      ∀ w1, (UserStakeInfo.Serialize c ({ Peers := none } : UserStakeInfo K) w).2 = .ok w1 →
        w1.buf = w.buf ++ c.encVarUint 0) ∧
    (∀ v r1, ViewInfo.Deserialize c v0 r = .ok (v, r1) →
      (∃ m, v.Peers = some m) ∧
      ∀ h, (ViewInfo.GetPeer c v h).2 ≠ .error "GetPeer: peers is nil") ∧
    (∀ u r1, UserStakeInfo.Deserialize c u0 r = .ok (u, r1) → ∃ m, u.Peers = some m) ∧
    (c.RoundTrips → ∀ rest,
      ViewInfo.Deserialize c v0 (c.encVarUint 0 ++ rest) = .ok ({ Peers := some [] }, rest) ∧
      UserStakeInfo.Deserialize c u0 (c.encVarUint 0 ++ rest) =
        .ok ({ Peers := some [] }, rest)) := by
  have hv : ViewInfo.peerInfoList ({ Peers := none } : ViewInfo K A) = [] := rfl
  have hu : UserStakeInfo.userPeerInfoList ({ Peers := none } : UserStakeInfo K) = [] := rfl
  have he1 : (ViewInfo.Serialize c ({ Peers := none } : ViewInfo K A) w).2 =
      (ViewInfo.Serialize c { Peers := some [] } w).2 := by
    rw [viewInfo_Serialize_snd, viewInfo_Serialize_snd]
    rfl
  have he2 : (UserStakeInfo.Serialize c ({ Peers := none } : UserStakeInfo K) w).2 =
      (UserStakeInfo.Serialize c { Peers := some [] } w).2 := by
    rw [userStakeInfo_Serialize_snd, userStakeInfo_Serialize_snd]
    rfl
  refine ⟨⟨he1, ?_, ?_⟩, ⟨he2, ?_, ?_⟩, ?_, ?_, ?_⟩
  · intro h
    rw [viewInfo_Serialize_unbounded c _ w h, hv]
    simp [ViewInfo.layout, toUint64_zero]
  · intro w1 h
    rw [viewInfo_Serialize_ok_buf c _ w w1 h, hv]
    simp [ViewInfo.layout, toUint64_zero]
  · intro h
    rw [userStakeInfo_Serialize_unbounded c _ w h, hu]
    simp [UserStakeInfo.layout, toUint64_zero]
  · intro w1 h
    rw [userStakeInfo_Serialize_ok_buf c _ w w1 h, hu]
    simp [UserStakeInfo.layout, toUint64_zero]
  · intro v r1 h
    obtain ⟨num, r0, m, _, _, rfl⟩ := viewInfo_Deserialize_ok c v0 v r r1 h
    exact ⟨⟨m, rfl⟩, fun s => viewInfo_GetPeer_not_nil_error c m s⟩
  · intro u r1 h
    obtain ⟨num, r0, m, _, _, rfl⟩ := userStakeInfo_Deserialize_ok c u0 u r r1 h
    exact ⟨m, rfl⟩
  · intro hc rest
    constructor
    · have h := viewInfo_Deserialize_layout c hc [] (by simp) (by simp) v0 rest
      simpa [ViewInfo.layout, toUint64_zero] using h
    · have h := userStakeInfo_Deserialize_layout c hc [] (by simp) (by simp) u0 rest
      simpa [UserStakeInfo.layout, toUint64_zero] using h

/-- Witness of C19 with the sample primitives: the nil view is written as the
eight zero bytes of `varuint(0)`, these bytes decode to the empty initialized
mapping, and `GetPeer` on it reports a missing peer, not a nil mapping. -/
theorem nil_mapping_encodes_as_empty_witness :
    (ViewInfo.Serialize Sample.codec { Peers := none } Writer.buffer).2 =
      .ok { buf := [0, 0, 0, 0, 0, 0, 0, 0], room := none } ∧
    ViewInfo.Deserialize Sample.codec { Peers := none } [0, 0, 0, 0, 0, 0, 0, 0] =
      .ok ({ Peers := some [] }, []) ∧
    (ViewInfo.GetPeer Sample.codec { Peers := some [] } "aa").2 =
      .error "GetPeer: peer aa not exist" ∧
    (∃ m, ({ Peers := some [] } : ViewInfo Sample.PublicKey Sample.Address).Peers = some m) ∧
    ∀ h, (ViewInfo.GetPeer Sample.codec { Peers := some [] } h).2 ≠
      .error "GetPeer: peers is nil" :=
  ⟨rfl, rfl, rfl,
    (nil_mapping_encodes_as_empty Sample.codec Writer.buffer { Peers := none }
      { Peers := none } [0, 0, 0, 0, 0, 0, 0, 0]).2.2.1 { Peers := some [] } [] rfl⟩


/-! ## Decoding consumes exactly what encoding wrote -/

/-- C20. Decoding consumes exactly the encoded bytes: if the primitive codecs
round-trip (each reader returns the value and leaves what follows it), then for
every record `x`, every consistent `ViewInfo` mapping `m` and every consistent
`UserStakeInfo` mapping `u` (each of fewer than `2^64` entries) and every byte
sequence `rest`, `Deserialize` applied to the bytes written by `Serialize`
followed by `rest` returns the value (for a collection, the same mapping) and
leaves exactly `rest` unread; hence two encoded records written one after the
other are decoded back one after the other. -/
theorem Deserialize_consumes_exactly [DecidableEq K] [Inhabited A] (c : Codec K A)
    (hc : c.RoundTrips) (x y x0 : PeerViewInfo A) (m : List (K × PeerViewInfo A))
    (hm : ViewInfo.Consistent c m) (hml : m.length < 2 ^ 64) (v0 : ViewInfo K A)
    (u : List (K × UserPeerStakeInfo)) (hu : UserStakeInfo.Consistent c u)
    (hul : u.length < 2 ^ 64) (u0 : UserStakeInfo K) (rest : List Byte) :
    (∃ w, x.Serialize c Writer.buffer = .ok w ∧
      PeerViewInfo.Deserialize c x0 (w.buf ++ rest) = .ok (x, rest)) ∧
    (∃ w m1, (ViewInfo.Serialize c { Peers := some m } Writer.buffer).2 = .ok w ∧
      ViewInfo.Deserialize c v0 (w.buf ++ rest) = .ok ({ Peers := some m1 }, rest) ∧
      m1.Perm m ∧ ∀ k, mapIndex m1 k = mapIndex m k) ∧
    (∃ w m1, (UserStakeInfo.Serialize c { Peers := some u } Writer.buffer).2 = .ok w ∧
      UserStakeInfo.Deserialize c u0 (w.buf ++ rest) = .ok ({ Peers := some m1 }, rest) ∧
      m1.Perm u ∧ ∀ k, mapIndex m1 k = mapIndex u k) ∧
    (∃ wx wy, x.Serialize c Writer.buffer = .ok wx ∧ y.Serialize c Writer.buffer = .ok wy ∧
      PeerViewInfo.Deserialize c x0 (wx.buf ++ (wy.buf ++ rest)) =
        .ok (x, wy.buf ++ rest) ∧
      PeerViewInfo.Deserialize c x0 (wy.buf ++ rest) = .ok (y, rest)) := by
  refine ⟨⟨_, peerViewInfo_Serialize_unbounded c x Writer.buffer rfl, ?_⟩, ?_, ?_,
    ⟨_, _, peerViewInfo_Serialize_unbounded c x Writer.buffer rfl,
      peerViewInfo_Serialize_unbounded c y Writer.buffer rfl, ?_, ?_⟩⟩
  · simpa [Writer.buffer] using peerViewInfo_Deserialize_layout c hc x x0 rest
  · have hes : ViewInfo.peerInfoList { Peers := some m } =
        (sortSliceStable (fun a b : K × PeerViewInfo A =>
          strGt a.2.PeerPubKey b.2.PeerPubKey) m).map Prod.snd := by
      unfold ViewInfo.peerInfoList
      exact sortSliceStable_map Prod.snd (fun a b => strGt a.PeerPubKey b.PeerPubKey) m
    have hperm := sortSliceStable_perm
      (fun a b : K × PeerViewInfo A => strGt a.2.PeerPubKey b.2.PeerPubKey) m
    have hnd : ((sortSliceStable (fun a b : K × PeerViewInfo A =>
        strGt a.2.PeerPubKey b.2.PeerPubKey) m).map Prod.fst).Nodup :=
      (List.Perm.nodup_iff (hperm.map Prod.fst)).mpr hm.2
    refine ⟨_, _, viewInfo_Serialize_unbounded c _ Writer.buffer rfl, ?_, hperm,
      fun k => mapIndex_perm hperm hm.2 k⟩
    have h := viewInfo_Deserialize_layout c hc _ (by rw [hperm.length_eq]; exact hml)
      (fun e he => hm.1 e (hperm.mem_iff.mp he)) v0 rest
    rw [foldl_mapAssign_of_nodup _ _ (by simpa using hnd)] at h
    simpa [Writer.buffer, hes] using h
  · have hes : UserStakeInfo.userPeerInfoList { Peers := some u } =
        (sortSliceStable (fun a b : K × UserPeerStakeInfo =>
          strGt a.2.PeerPubKey b.2.PeerPubKey) u).map Prod.snd := by
      unfold UserStakeInfo.userPeerInfoList
      exact sortSliceStable_map Prod.snd (fun a b => strGt a.PeerPubKey b.PeerPubKey) u
    have hperm := sortSliceStable_perm
      (fun a b : K × UserPeerStakeInfo => strGt a.2.PeerPubKey b.2.PeerPubKey) u
    have hnd : ((sortSliceStable (fun a b : K × UserPeerStakeInfo =>
        strGt a.2.PeerPubKey b.2.PeerPubKey) u).map Prod.fst).Nodup :=
      (List.Perm.nodup_iff (hperm.map Prod.fst)).mpr hu.2
    refine ⟨_, _, userStakeInfo_Serialize_unbounded c _ Writer.buffer rfl, ?_, hperm,
      fun k => mapIndex_perm hperm hu.2 k⟩
    have h := userStakeInfo_Deserialize_layout c hc _ (by rw [hperm.length_eq]; exact hul)
      (fun e he => hu.1 e (hperm.mem_iff.mp he)) u0 rest
    rw [foldl_mapAssign_of_nodup _ _ (by simpa using hnd)] at h
    simpa [Writer.buffer, hes] using h
  · simpa [Writer.buffer] using
      peerViewInfo_Deserialize_layout c hc x x0 (y.layout c ++ rest)
  · simpa [Writer.buffer] using peerViewInfo_Deserialize_layout c hc y x0 rest

set_option maxRecDepth 100000 in
/-- Witness of C20: the encodings of the end-to-end view and of the sample ledger,
each followed by the three bytes `7, 8, 9`, decode to the value and leave
`7, 8, 9`. -/
theorem Deserialize_consumes_exactly_witness :
    Sample.codec.RoundTrips ∧
    ViewInfo.Consistent Sample.codec [(Sample.keyAA, Sample.peerAA)] ∧
    UserStakeInfo.Consistent Sample.codec
      [(Sample.keyAA, Sample.stakeAA), (Sample.keyBB, Sample.stakeBB)] ∧
    (∃ w, (ViewInfo.Serialize Sample.codec Sample.viewAA Writer.buffer).2 = .ok w ∧
      ViewInfo.Deserialize Sample.codec { Peers := none } (w.buf ++ [7, 8, 9]) =
        .ok (Sample.viewAA, [7, 8, 9])) ∧
    (∃ w, Sample.peerAA.Serialize Sample.codec Writer.buffer = .ok w ∧
      PeerViewInfo.Deserialize Sample.codec PeerViewInfo.zero (w.buf ++ [7, 8, 9]) =
        .ok (Sample.peerAA, [7, 8, 9])) ∧
    (∃ w m1,
      (UserStakeInfo.Serialize Sample.codec
        { Peers := some [(Sample.keyAA, Sample.stakeAA), (Sample.keyBB, Sample.stakeBB)] }
        Writer.buffer).2 = .ok w ∧
      UserStakeInfo.Deserialize Sample.codec { Peers := none } (w.buf ++ [7, 8, 9]) =
        .ok ({ Peers := some m1 }, [7, 8, 9]) ∧
      m1.Perm [(Sample.keyAA, Sample.stakeAA), (Sample.keyBB, Sample.stakeBB)] ∧
      ∀ k, mapIndex m1 k =
        mapIndex [(Sample.keyAA, Sample.stakeAA), (Sample.keyBB, Sample.stakeBB)] k) :=
  have h1 : ViewInfo.Consistent Sample.codec [(Sample.keyAA, Sample.peerAA)] :=
    ⟨fun e he => by
      rw [List.mem_singleton] at he
      subst he
      exact ⟨[170], rfl, rfl⟩, by decide⟩
  have h2 : UserStakeInfo.Consistent Sample.codec
      [(Sample.keyAA, Sample.stakeAA), (Sample.keyBB, Sample.stakeBB)] :=
    ⟨fun e he => by
      simp only [List.mem_cons, List.mem_singleton, List.not_mem_nil, or_false] at he
      rcases he with rfl | rfl
      · exact ⟨[170], rfl, rfl⟩
      · exact ⟨[187], rfl, rfl⟩, by decide⟩
  ⟨Sample.codec_roundTrips, h1, h2, ⟨_, rfl, rfl⟩,
    (Deserialize_consumes_exactly Sample.codec Sample.codec_roundTrips Sample.peerAA
      Sample.peerBB PeerViewInfo.zero _ h1 (by decide) { Peers := none } _ h2 (by decide)
      { Peers := none } [7, 8, 9]).1,
    (Deserialize_consumes_exactly Sample.codec Sample.codec_roundTrips Sample.peerAA
      Sample.peerBB PeerViewInfo.zero _ h1 (by decide) { Peers := none } _ h2 (by decide)
      { Peers := none } [7, 8, 9]).2.2.1⟩


/-! ## Entries that derive the same key -/

end Claims

end ShardStake
